import Mathlib

/-!
Verification of the schema-extraction and normalization engine of the
`source_parser` repository against its natural-language specification.

The development shallowly embeds the relevant Python code:

* `source_parser/tree_sitter/__init__.py` — the token collector
  (`get_tokens`), the negative-number pre-pass (`handle_negative_number`,
  `handle_negative_case`, `is_numeric_operator_field`), the file tokenizer
  (`_file_tokenizer`), the literal counter (`LiteralCount.count_lits`,
  `LiteralCount.update`, `LiteralCount.prune`) and the normalizer
  (`normalize`, `norm_untokenize`).
* `source_parser/parsers/ruby_parser.py` — the reopened-class merge in
  `RubyParser.schema`.
* `source_parser/parsers/python_parser.py`,
  `source_parser/parsers/jsts_parser.py` and `source_parser/helpers.py`
  — byte-span fidelity of extracted records, including the JS/TS
  declaration/export wrapper override of `original_string`.

Trees produced by the external tree-sitter CST provider are modelled by the
inductive `Node`.  Python exceptions are modelled by `Option`: a function
that can raise returns `none` in exactly the situations where the Python
code would raise.  Text is modelled at the character level (`List Char`),
with byte offsets read as character offsets; this is exact for the ASCII
inputs all cited behaviour depends on.
-/

/-- A tree-sitter point: (row, column). -/
abbrev Pt := Nat × Nat

/-- A Python value occupying one slot of a token-position entry: either a
point tuple or a bare integer (the end-of-statement marker stores `-1`). -/
abbrev PtV := Pt ⊕ Int

/-- One entry of the `tokens` list built by `get_tokens`: a two-element
Python list `[start, finish]`.  Ordinary tokens hold two points; the
end-of-statement marker holds `[-1, -1]`. -/
abbrev TokPos := PtV × PtV

/-- The `[-1, -1]` entry appended by `get_tokens` after a statement. -/
def eosTok : TokPos := (Sum.inr (-1), Sum.inr (-1))

instance : DecidableEq TokPos := inferInstance

instance : DecidableEq (List TokPos) := inferInstance

/-- A concrete-syntax-tree node as exposed by the external CST provider
(spec section 6): a type tag, byte/point span and ordered children. -/
inductive Node where
  | mk (type_ : String) (startPoint endPoint : Pt) (startByte endByte : Nat)
       (children : List Node)
deriving Repr

def Node.type_ : Node → String
  | .mk t _ _ _ _ _ => t

def Node.startPoint : Node → Pt
  | .mk _ s _ _ _ _ => s

def Node.endPoint : Node → Pt
  | .mk _ _ e _ _ _ => e

def Node.startByte : Node → Nat
  | .mk _ _ _ s _ _ => s

def Node.endByte : Node → Nat
  | .mk _ _ _ _ e _ => e

def Node.children : Node → List Node
  | .mk _ _ _ _ _ c => c

/-- Does the character list `pat` occur as a contiguous subsequence of
`l`?  Models the Python substring test `pat in l`. -/
def seqContains (l pat : List Char) : Bool :=
  (List.range (l.length + 1)).any fun p => pat.isPrefixOf (l.drop p)

/-- Python substring test `pat in s` on strings. -/
def strContains (s pat : String) : Bool :=
  seqContains s.toList pat.toList

/-- The language identifiers of `source_parser.tree_sitter.config`. -/
inductive LanguageId where
  | BASH | C | CSS | CPP | CSHARP | GO | HTML | JAVA | JAVASCRIPT | LUA
  | PYTHON | PHP | REGEX | RUBY | RUST | TYPESCRIPT
deriving DecidableEq, Repr

/-- The `lang2statements` dict of `tree_sitter/__init__.py` (lines 94-112):
only C# has an entry; looking up any other language raises `KeyError`,
modelled by `none`. -/
def lang2statements : LanguageId → Option (List String)
  | .CSHARP => some
      ["namespace_declaration", "class_declaration", "method_declaration",
       "struct_declaration", "interface_declaration", "operator_declaration",
       "record_declaration", "constructor_declaration",
       "destructor_declaration", "enum_declaration", "event_declaration",
       "event_field_declaration", "field_declaration", "property_declaration",
       "using_directive"]
  | _ => none

/-- The list of composite-string type tags excluded from the one-leaf-token
branch of `get_tokens` (line 141). -/
def compositeStringTypes : List String :=
  ["concatenated_string", "string_array", "chained_string"]

/-- The accumulator threaded through `get_tokens`: the `tokens` and `types`
lists, appended to in lockstep. -/
abbrev TokAcc := List TokPos × List String

/-- Lines 152-154 of `get_tokens`: append an end-of-statement marker unless
the most recent type is already `endofstatement`; `types[-1]` on an empty
list raises `IndexError` (`none`). -/
def appendMarker (acc : TokAcc) : Option TokAcc :=
  match acc.2.getLast? with
  | none => none
  | some t =>
      if t ≠ "endofstatement" then
        some (acc.1 ++ [eosTok], acc.2 ++ ["endofstatement"])
      else
        some acc

mutual

/-- Embedding of `get_tokens` (tree_sitter/__init__.py lines 115-154).
`none` models an uncaught exception (`KeyError` on `lang2statements[lang]`
or `IndexError` on `types[-1]`). -/
def getTokens (preserve : Bool) (lang : LanguageId) (node : Node)
    (acc : TokAcc) : Option TokAcc :=
  match node with
  | .mk ty sp ep _ _ children =>
    if children.length = 0 then
      some (acc.1 ++ [(Sum.inl sp, Sum.inl ep)], acc.2 ++ [ty])
    else if (decide (ty ∉ compositeStringTypes) && strContains ty "string") ||
            strContains ty "char" then do
      let c0 ← children.head?
      let cn ← children.getLast?
      some (acc.1 ++ [(Sum.inl c0.startPoint, Sum.inl cn.endPoint)],
            acc.2 ++ [ty])
    else
      getTokensList preserve lang children acc
termination_by sizeOf node

/-- The `for child in node.children` loop of `get_tokens`, including the
end-of-statement marker insertion (lines 148-154). -/
def getTokensList (preserve : Bool) (lang : LanguageId) (l : List Node)
    (acc : TokAcc) : Option TokAcc :=
  match l with
  | [] => some acc
  | c :: cs => do
      let acc1 ← getTokens preserve lang c acc
      let acc2 ←
        if preserve then
          if strContains c.type_ "statement" then
            appendMarker acc1
          else do
            let stmts ← lang2statements lang
            if c.type_ ∈ stmts then appendMarker acc1 else some acc1
        else
          some acc1
      getTokensList preserve lang cs acc2
termination_by sizeOf l

end

/-- A leaf node is emitted as one token carrying its own span and type. -/
theorem getTokens_leaf (preserve : Bool) (lang : LanguageId) (ty : String)
    (sp ep : Pt) (sb eb : Nat) (acc : TokAcc) :
    getTokens preserve lang (.mk ty sp ep sb eb []) acc =
      some (acc.1 ++ [(Sum.inl sp, Sum.inl ep)], acc.2 ++ [ty]) := by
  simp [getTokens]

/-- Python list indexing `l[i]` for an `int` index: negative indices count
from the end; an out-of-range index raises `IndexError` (`none`). -/
def pyGet (l : List α) (i : Int) : Option α :=
  if i < 0 then
    if (l.length : Int) + i < 0 then none
    else l.get? ((l.length : Int) + i).toNat
  else l.get? i.toNat

/-- The four literal-kind node-type lists of one language: entry of the
`lang2lits` table (`tree_sitter/__init__.py` lines 37-92). -/
structure LitTypes where
  num : List String
  str : List String
  char : List String
  regex : List String
deriving DecidableEq, Repr

/-- The `lang2lits` dict (lines 37-92): languages absent from the dict
(BASH, CSS, HTML, REGEX, JAVA is present) raise `KeyError` on lookup,
modelled by `none`. -/
def lang2lits : LanguageId → Option LitTypes
  | .C => some ⟨["number_literal"], ["string_literal"], ["char_literal"], []⟩
  | .CPP => some ⟨["number_literal"], ["string_literal", "raw_string_literal"],
                  ["char_literal"], []⟩
  | .CSHARP => some ⟨["integer_literal", "real_literal"],
                     ["string_literal", "verbatim_string_literal"],
                     ["character_literal"], []⟩
  | .GO => some ⟨["int_literal", "float_literal", "imaginary_literal"],
                 ["interpreted_string_literal", "raw_string_literal",
                  "rune_literal"], [], []⟩
  | .JAVA => some ⟨["decimal_floating_point_literal", "decimal_integer_literal",
                    "hex_floating_point_literal", "hex_integer_literal",
                    "octal_integer_literal", "binary_integer_literal"],
                   ["string_literal"], ["character_literal"], []⟩
  | .JAVASCRIPT => some ⟨["number"], ["string", "template_string"], [],
                         ["regex_pattern"]⟩
  | .LUA => some ⟨["number"], ["string"], [], []⟩
  | .PYTHON => some ⟨["integer", "float"], ["string"], [], []⟩
  | .PHP => some ⟨["integer", "float"], ["string"], [], []⟩
  | .RUBY => some ⟨["integer", "float"], ["string", "bare_string"], [], []⟩
  | .RUST => some ⟨["integer_literal", "float_literal"],
                   ["string_literal", "raw_string_literal"], ["char_literal"],
                   []⟩
  | .TYPESCRIPT => some ⟨["number"], ["string", "template_string"], [],
                         ["regex_pattern"]⟩
  | _ => none

/-- Embedding of `is_numeric_operator_field` (lines 580-581). -/
def is_numeric_operator_field (field : String) : Bool :=
  field ∈ ["=", "==", "===", "!=", "!==", "+", "-", "*", "/", "%", "!", "not"]

/-- The full condition of lines 564-568 of `handle_negative_case`: the
token type at Python index `negative_index - 1` is an operator, a comma or
an opening bracket. -/
def negMergeCond (tprev : String) : Bool :=
  is_numeric_operator_field tprev || tprev = "," || tprev = "(" ||
    tprev = "\x7b" || tprev = "["

/-- Embedding of `handle_negative_case` (lines 561-577).  `none` models an
`IndexError` (`types[negative_index + 1]` past the end).  The shift-and-pop
loop of lines 573-577 removes index `negative_index + 1` from both lists;
as in the calling pipeline, the two lists are kept in lockstep. -/
def handle_negative_case (tokens : List TokPos) (types : List String)
    (negative_index : Nat) (numeric_literal_types : List String) :
    Option (List TokPos × List String) :=
  match types.get? (negative_index + 1) with
  | none => none
  | some t1 =>
    if t1 ∉ numeric_literal_types then some (tokens, types)
    else
      match pyGet types ((negative_index : Int) - 1) with
      | none => none
      | some tprev =>
        if negMergeCond tprev then
          match tokens.get? negative_index, tokens.get? (negative_index + 1)
            with
          | some ti, some ti1 =>
              some ((tokens.set negative_index (ti.1, ti1.2)).eraseIdx
                      (negative_index + 1),
                    (types.set negative_index t1).eraseIdx
                      (negative_index + 1))
          | _, _ => none
        else some (tokens, types)

theorem eraseIdx_length_le (l : List α) (i : Nat) :
    (l.eraseIdx i).length ≤ l.length := by
  induction l generalizing i with
  | nil => simp [List.eraseIdx]
  | cons a l ih =>
    cases i with
    | zero => simp [List.eraseIdx]
    | succ n =>
      simp only [List.eraseIdx, List.length_cons]
      exact Nat.succ_le_succ (ih n)

theorem handle_negative_case_types_length_le
    {tokens : List TokPos} {types : List String} {i : Nat}
    {nt : List String} {r : List TokPos × List String}
    (h : handle_negative_case tokens types i nt = some r) :
    r.2.length ≤ types.length := by
  unfold handle_negative_case at h
  split at h
  · exact Option.noConfusion h
  · split at h
    · cases h
      exact le_refl _
    · split at h
      · exact Option.noConfusion h
      · split at h
        · split at h
          · cases h
            refine le_trans (eraseIdx_length_le _ _) ?_
            exact le_of_eq (List.length_set _ _ _)
          · exact Option.noConfusion h
        · cases h
          exact le_refl _

/-- Embedding of the `while` loop of `handle_negative_number`
(lines 553-558), starting at index `i`. -/
def hnnLoop (tokens : List TokPos) (types : List String)
    (numeric_literal_types : List String) (i : Nat) :
    Option (List TokPos × List String) :=
  if h : i < types.length then
    if types.get ⟨i, h⟩ = "-" then
      match hm : handle_negative_case tokens types i numeric_literal_types
        with
      | none => none
      | some r => hnnLoop r.1 r.2 numeric_literal_types (i + 1)
    else hnnLoop tokens types numeric_literal_types (i + 1)
  else some (tokens, types)
termination_by types.length + 1 - i
decreasing_by
  · have := handle_negative_case_types_length_le hm
    omega
  · omega

/-- Embedding of `handle_negative_number` (lines 553-558). -/
def handle_negative_number (tokens : List TokPos) (types : List String)
    (numeric_lteral_types : List String) :
    Option (List TokPos × List String) :=
  hnnLoop tokens types numeric_lteral_types 0

/-- Shorthand: the characters of a string literal. -/
def strL (s : String) : List Char := s.toList

/-- The ASCII whitespace characters recognised by Python's `\s`,
`str.strip` and `bytes.strip`. -/
def isPySpace (c : Char) : Bool :=
  c = ' ' || c = '\t' || c = '\n' || c = '\r' || c = '\x0b' || c = '\x0c'

/-- Python slicing `l[a:b]` for non-negative bounds (clamping, total). -/
def pySlice (l : List Char) (a b : Nat) : List Char := (l.take b).drop a

/-- Is `p.1` the Python int `-1`?  Models the test `token[0] == -1`
(comparing a point tuple with an int is simply `False`). -/
def isNegOne : PtV → Bool
  | Sum.inr k => k = -1
  | Sum.inl _ => false

/-- Python `bytes.split(b"\n")`. -/
def splitOnNl : List Char → List (List Char)
  | [] => [[]]
  | c :: rest =>
    match splitOnNl rest with
    | [] => [[]]
    | h :: t => if c = '\n' then [] :: h :: t else (c :: h) :: t

/-- Index of the first occurrence of `pat` in `l`, if any. -/
def firstIdxOfSeq (l pat : List Char) : Option Nat :=
  (List.range (l.length + 1)).find? fun p => pat.isPrefixOf (l.drop p)

/-- Index of the last occurrence of `pat` in `l` starting at or after
position `lo`, if any. -/
def lastIdxOfSeq (l pat : List Char) (lo : Nat) : Option Nat :=
  ((List.range (l.length + 1)).filter
    fun p => decide (lo ≤ p) && pat.isPrefixOf (l.drop p)).getLast?

/-- Python `s.split("//")[0]`: the prefix before the first `//`. -/
def takeBeforeSlashSlash (l : List Char) : List Char :=
  match firstIdxOfSeq l (strL "//") with
  | some i => l.take i
  | none => l

/-- Embedding of `re.sub(r"\/\*(.|\n)*\*\/", "", s)` (line 243): the
greedy pattern removes everything from the first `/*` through the last
following `*/`, or nothing when no such pair exists. -/
def blockCommentSub (s : List Char) : List Char :=
  match firstIdxOfSeq s (strL "/*") with
  | none => s
  | some i =>
    match lastIdxOfSeq s (strL "*/") (i + 2) with
    | none => s
    | some j => s.take i ++ s.drop (j + 2)

/-- One output entry of `_file_tokenizer`: position (`none` models the
empty list `[]` used for inserted entries), token text, token type. -/
abbrev FileTokEntry := Option TokPos × List Char × String

/-- The `for i, token in enumerate(positions)` loop of `_file_tokenizer`
(lines 220-256), carrying `prev_line`.  `none` models an uncaught
exception: `IndexError` on `types[i]` or a line index, or `TypeError`
when a position slot holds an int where a point is subscripted. -/
def fileTokLoop (lines : List (List Char)) (keep_newline : Bool) :
    List TokPos → List String → Nat → Option (List FileTokEntry)
  | [], _, _ => some []
  | p :: ps, tps, prev_line =>
    if isNegOne p.1 then
      match tps.head? with
      | none => none
      | some tp =>
        if tp = "endofstatement" then
          (fileTokLoop lines keep_newline ps tps.tail prev_line).map
            fun rest => (none, strL "<endofstatement>", "endofstatement") ::
              rest
        else none
    else
      match p.1 with
      | Sum.inr _ => none
      | Sum.inl sp =>
        match p.2 with
        | Sum.inr _ => none
        | Sum.inl ep =>
          let nlEntry : List FileTokEntry :=
            if sp.1 ≠ prev_line && keep_newline then
              [(none, strL "\n", "new_line")]
            else []
          match tps.head? with
          | none => none
          | some tp => do
            let entry : FileTokEntry ←
              if tp = "preproc_arg" then do
                let line ← lines.get? sp.1
                some ((some p : Option TokPos),
                      blockCommentSub
                        (takeBeforeSlashSlash (pySlice line sp.2 ep.2)), tp)
              else if sp.1 = ep.1 then do
                let line ← lines.get? sp.1
                some ((some p : Option TokPos), pySlice line sp.2 ep.2, tp)
              else do
                let line0 ← lines.get? sp.1
                let mids ← (List.range' (sp.1 + 1) (ep.1 - (sp.1 + 1))).mapM
                  lines.get?
                let lineN ← lines.get? ep.1
                some ((some p : Option TokPos),
                      line0.drop sp.2 ++ mids.flatten ++ lineN.take ep.2, tp)
            let rest ← fileTokLoop lines keep_newline ps tps.tail ep.1
            some (nlEntry ++ entry :: rest)

/-- Embedding of `_file_tokenizer` (tree_sitter/__init__.py lines
186-264), including the trailing empty-line fixup of lines 258-262. -/
def file_tokenizer (code : List Char) (positions : List TokPos)
    (types : List String) (keep_newline : Bool) :
    Option (List (Option TokPos) × List (List Char) × List String) := do
  let lines := splitOnNl code
  let entries ← fileTokLoop lines keep_newline positions types 0
  let lastLine ← lines.getLast?
  let entries2 ←
    if lastLine.all isPySpace && keep_newline then
      match entries.getLast? with
      | none => none
      | some e =>
        if e.2.1 ≠ strL "\n" then
          some (entries ++ [((none : Option TokPos), strL "\n", "new_line")])
        else some entries
    else some entries
  some (entries2.map (·.1), entries2.map (·.2.1), entries2.map (·.2.2))

/-- A Python `collections.Counter` keyed by token text: an assoc list in
insertion order (Python dicts preserve insertion order). -/
abbrev PyCounter := List (List Char × Nat)

/-- `counter[k] += v`: add to the existing entry, else append a new one. -/
def counterAdd : PyCounter → List Char → Nat → PyCounter
  | [], k, v => [(k, v)]
  | (k', v') :: rest, k, v =>
    if k' = k then (k', v' + v) :: rest else (k', v') :: counterAdd rest k v

/-- `Counter.update(d)`: merge the counts of `d` in iteration order. -/
def counterUpdate (c d : PyCounter) : PyCounter :=
  d.foldl (fun acc p => counterAdd acc p.1 p.2) c

/-- The multiplicity of key `k` in a counter. -/
def countOf (c : PyCounter) (k : List Char) : Nat :=
  (c.map fun p => if p.1 = k then p.2 else 0).sum

/-- The four per-kind counters of `LiteralCount.lits_counter`, also the
shape of the dicts returned by `count_lits`. -/
structure LitsDict where
  num : PyCounter
  str : PyCounter
  char : PyCounter
  regex : PyCounter
deriving DecidableEq, Repr

/-- The freshly initialised dict of four empty counters. -/
def emptyLits : LitsDict := ⟨[], [], [], []⟩

/-- Length of the greedy match of `\s*\n` at the head of `l`: the longest
whitespace-only prefix that ends with a newline, if any. -/
def wsNlMatchLen : List Char → Option Nat
  | [] => none
  | c :: rest =>
    if isPySpace c then
      match wsNlMatchLen rest with
      | some n => some (n + 1)
      | none => if c = '\n' then some 1 else none
    else none

/-- Embedding of `re.sub(re.compile(r"\s*\n"), "\n", code)` (line 392 and
line 768): each leftmost greedy match of whitespace-ending-in-newline is
replaced by a single newline.  Every match consumes at least one
character, so fuel equal to the input length makes the recursion exact. -/
def subWsNlFuel : Nat → List Char → List Char
  | 0, l => l
  | _, [] => []
  | fuel + 1, c :: rest =>
    match wsNlMatchLen (c :: rest) with
    | some n => '\n' :: subWsNlFuel fuel (rest.drop (n - 1))
    | none => c :: subWsNlFuel fuel rest

/-- The whitespace-collapsing substitution on a whole text. -/
def subWsNl (l : List Char) : List Char := subWsNlFuel l.length l

/-- Largest `k ≤ maxK` such that `la` occurs in `suf` at offset `k`:
the backtracking of the greedy `(.*)` before a lookahead. -/
def bestK (suf la : List Char) : Nat → Option Nat
  | 0 => if la.isPrefixOf suf then some 0 else none
  | k + 1 =>
    if la.isPrefixOf (suf.drop (k + 1)) then some (k + 1)
    else bestK suf la k

/-- Embedding of `re.search` for the fixed patterns
`(?<=LB)(.*)(?=LA)` used in `count_lits` (lines 394-399): scan for the
leftmost position whose preceding characters are exactly `lb`, then match
the longest run of non-newline characters followed immediately by `la`.
Returns the matched group. -/
def reSearchBetween (lb la t : List Char) : Option (List Char) :=
  (List.range (t.length + 1)).findSome? fun p =>
    if lb.isSuffixOf (t.take p) then
      (bestK (t.drop p) la ((t.drop p).takeWhile (· ≠ '\n')).length).map
        fun k => (t.drop p).take k
    else none

/-- The `str_quote_options` patterns of `count_lits` (lines 394-399), as
(lookbehind, lookahead) pairs, in source order. -/
def strQuoteOptions : List (List Char × List Char) :=
  [(strL "\"\"\"", strL "\"\"\""), (strL "'''", strL "'''"),
   (strL "'", strL "'"), (strL "\"", strL "\"")]

/-- The matched group of the first pattern that matches, if any: the
`for q in str_quote_options` loop with its `break`. -/
def firstQuoteMatch (opts : List (List Char × List Char)) (token : List Char) :
    Option (List Char) :=
  opts.findSome? fun q => reSearchBetween q.1 q.2 token

/-- Python `s.replace(c, rep)` for a single-character needle. -/
def replaceAllChar (cs : List Char) (c : Char) (rep : List Char) :
    List Char :=
  cs.flatMap fun x => if x = c then rep else [x]

/-- The space/comma escaping applied before counting a literal
(lines 418-419 and 427-428). -/
def escapeLit (s : List Char) : List Char :=
  replaceAllChar (replaceAllChar s ' ' (strL "U+0020")) ',' (strL "U+002C")

/-- The body of the `for token, tp in zip(tokens, types)` loop of
`count_lits` (lines 409-434): classify one token by its type and update
the four counters. -/
def processLitToken (lt : LitTypes) (lits : LitsDict) (token : List Char)
    (tp : String) : LitsDict :=
  if tp ∈ lt.num then
    { lits with num := counterAdd lits.num token 1 }
  else if tp ∈ lt.str then
    match firstQuoteMatch strQuoteOptions token with
    | some strlit =>
      if 0 < strlit.length ∧ strlit.length ≤ 25 then
        { lits with str := counterAdd lits.str (escapeLit strlit) 1 }
      else lits
    | none => lits
  else if tp ∈ lt.char then
    match firstQuoteMatch (strQuoteOptions.drop 2) token with
    | some charlit =>
      { lits with char := counterAdd lits.char (escapeLit charlit) 1 }
    | none => lits
  else if tp ∈ lt.regex then
    if 0 < token.length ∧ token.length < 25 ∧ ' ' ∉ token then
      { lits with regex := counterAdd lits.regex token 1 }
    else lits
  else lits

/-- Embedding of `LiteralCount.count_lits` (lines 372-438).  The external
parse result is passed as `root` (`none` models a parse exception).  Any
exception before the counting loop is caught by the `except` clause and
the so-far-empty dict is returned; classification itself is total. -/
def count_lits (lang : LanguageId) (token_limit : Nat) (code : List Char)
    (root : Option Node) : LitsDict :=
  if (subWsNl code).count '\n' < 2 then emptyLits
  else
    match root with
    | none => emptyLits
    | some r =>
      match getTokens false lang r ([], []) with
      | none => emptyLits
      | some (toks, tys) =>
        if toks.length > token_limit then emptyLits
        else
          match file_tokenizer code toks tys true with
          | none => emptyLits
          | some (_, tokStrs, tys2) =>
            match lang2lits lang with
            | none => emptyLits
            | some lt =>
              (tokStrs.zip tys2).foldl
                (fun l p => processLitToken lt l p.1 p.2) emptyLits

/-- Embedding of `LiteralCount.update` (lines 440-451). -/
def litsUpdate (lc : LitsDict) (litses : List LitsDict) : LitsDict :=
  litses.foldl
    (fun acc lits =>
      { num := counterUpdate acc.num lits.num,
        str := counterUpdate acc.str lits.str,
        char := counterUpdate acc.char lits.char,
        regex := counterUpdate acc.regex lits.regex })
    lc

/-- Insert an entry into a count-descending list, after all entries with a
strictly greater or equal count (the stability of Python's `sorted`). -/
def insertDesc (x : List Char × Nat) : PyCounter → PyCounter
  | [] => [x]
  | y :: ys => if y.2 > x.2 then y :: insertDesc x ys else x :: y :: ys

/-- Stable sort by count, descending: insertion from the right preserves
the original order of equal-count entries. -/
def sortDesc : PyCounter → PyCounter
  | [] => []
  | x :: xs => insertDesc x (sortDesc xs)

/-- `Counter.most_common(n)`: the `n` entries of largest count, ties kept
in insertion order. -/
def mostCommon (c : PyCounter) (n : Nat) : PyCounter := (sortDesc c).take n

/-- Embedding of `LiteralCount.prune` (lines 453-466): each counter is
cleared and rebuilt from its `most_common(keep_num)` list. -/
def prune (lc : LitsDict) (keep_num : Nat) : LitsDict :=
  { num := mostCommon lc.num keep_num,
    str := mostCommon lc.str keep_num,
    char := mostCommon lc.char keep_num,
    regex := mostCommon lc.regex keep_num }

/-- The `keywords` set of `tree_sitter/__init__.py` line 35. -/
def litKeywords : List (List Char) :=
  [strL "int", strL "integer", strL "float", strL "string", strL "char",
   strL "character"]

/-- The high-frequency literal lists passed to `normalize` as `lits`
(after the missing keys are filled with `[]`). -/
structure LitsHF where
  num : List (List Char)
  str : List (List Char)
  char : List (List Char)
  regex : List (List Char)
deriving DecidableEq, Repr

/-- Ordered-dict lookup, e.g. `special_tokens_map[token]`. -/
def amLookup (m : List (List Char × List Char)) (k : List Char) :
    Option (List Char) :=
  (m.find? fun p => p.1 = k).map (·.2)

/-- ASCII lowercase test, the character class `[a-z]`. -/
def isLowerAZ (c : Char) : Bool := 'a' ≤ c && c ≤ 'z'

/-- An uppercase hex digit. -/
def hexDigit (n : Nat) : Char :=
  if n < 10 then Char.ofNat ('0'.toNat + n) else Char.ofNat ('A'.toNat + n - 10)

/-- Auxiliary fuel recursion for uppercase hex rendering. -/
def toHexAux : Nat → Nat → List Char
  | 0, _ => []
  | fuel + 1, n =>
    if n = 0 then [] else toHexAux fuel (n / 16) ++ [hexDigit (n % 16)]

/-- Python `format(n, 'X')`. -/
def pyFormatX (n : Nat) : List Char :=
  if n = 0 then ['0'] else toHexAux n n

/-- Python `str.zfill(4)` on a digit string. -/
def zfill4 (l : List Char) : List Char :=
  List.replicate (4 - l.length) '0' ++ l

/-- The `special_chars_map` built by `normalize` (lines 526-528):
each character maps to the text `U+XXXX` of its zero-filled uppercase
hex code point. -/
def specialCharsMap (scs : List Char) : List (Char × List Char) :=
  scs.map fun c => (c, strL "U+" ++ zfill4 (pyFormatX c.toNat))

/-- Replace each special character in a literal (lines 680-681 and
717-718): fold the map in insertion order. -/
def applySpecialChars (scm : List (Char × List Char)) (s : List Char) :
    List Char :=
  scm.foldl (fun acc p => replaceAllChar acc p.1 p.2) s

/-- The number of iterations of Python `range(a, b, step)`.  A zero step
raises `ValueError` in Python; it is unreachable here because
`indent_size` is never zero once set. -/
def pyRangeCount (a b step : Int) : Nat :=
  if 0 < step then
    if b ≤ a then 0 else ((b - a).toNat + (step.toNat - 1)) / step.toNat
  else if step < 0 then
    if a ≤ b then 0 else ((a - b).toNat + ((-step).toNat - 1)) / (-step).toNat
  else 0

/-- The mutable locals of the `norm_untokenize` loop (lines 632-636). -/
structure NormSt where
  code_string : List Char
  prev_sp : Option Pt
  prev_ep : Pt
  prev_indent : Int
  indent_size : Int
deriving Repr

/-- Python slicing `l[:-n]`. -/
def dropLastN (l : List Char) (n : Nat) : List Char := l.take (l.length - n)

/-- The rendered form `add_token` of one token (lines 646-735). -/
def normAddToken (litnames : LitTypes) (lits : LitsHF) (comment : String)
    (stm : List (List Char × List Char)) (scm : List (Char × List Char))
    (token : List Char) (tp : String) : List Char :=
  if strContains tp "comment" then
    if comment = "normalize" then strL "#<COMMENT>"
    else if comment = "keep" then token
    else if token.head? = some ' ' then strL " " else []
  else if tp ∈ litnames.regex ∧ token ∉ litKeywords then
    match amLookup stm token with
    | some ov => ov
    | none =>
      if token ∈ lits.regex then strL "<REGEX_LIT:" ++ token ++ strL ">"
      else strL "<REGEX_LIT>"
  else if tp ∈ litnames.char ∧ token ∉ litKeywords then
    let qualifier := token.takeWhile isLowerAZ
    let token_string := token.drop qualifier.length
    let stripped :=
      match (["'", "\""].map strL).find? (fun q => q.isPrefixOf token_string)
        with
      | some q =>
        let afterStart := token_string.drop q.length
        if q.isSuffixOf token_string then
          (q, q, afterStart.dropLast)
        else (q, [], afterStart)
      | none => ([], [], token_string)
    let char_lit := applySpecialChars scm stripped.2.2
    match amLookup stm char_lit with
    | some ov => ov
    | none =>
      qualifier ++ stripped.1 ++
        (if char_lit ∈ lits.char then strL "<CHAR_LIT:" ++ char_lit ++ strL ">"
         else strL "<CHAR_LIT>") ++ stripped.2.1
  else if tp ∈ litnames.str ∧ token ∉ litKeywords then
    let qs : List Char × List Char :=
      if (strL "R\"(").isPrefixOf token then
        (strL "R", dropLastN (token.drop 3) 2)
      else
        let qualifier :=
          if (token.takeWhile isLowerAZ).length ≠ 0 then
            token.takeWhile isLowerAZ
          else if token.head? = some '@' then ['@']
          else []
        let token_string := token.drop qualifier.length
        let str_lit :=
          match (["'''", "\"\"\"", "'", "\"", "`"].map strL).find?
              (fun q => q.isPrefixOf token_string) with
          | some q =>
            let afterStart := token_string.drop q.length
            if q.isSuffixOf token_string then dropLastN afterStart q.length
            else afterStart
          | none => token_string
        (qualifier, str_lit)
    let str_lit := applySpecialChars scm qs.2
    match amLookup stm str_lit with
    | some ov => ov
    | none =>
      qs.1 ++
        (if str_lit ∈ lits.str then strL "<STR_LIT:" ++ str_lit ++ strL ">"
         else strL "<STR_LIT>")
  else if tp ∈ litnames.num ∧ token ∉ litKeywords then
    match amLookup stm token with
    | some ov => ov
    | none =>
      if token ∈ lits.num then strL "<NUM_LIT:" ++ token ++ strL ">"
      else strL "<NUM_LIT>"
  else token

/-- The placement step of `norm_untokenize` (lines 737-766): append
`add_token` to `code_string` with gap/newline/indent handling.  `none`
models the `IndexError` of `code_string[-1]` on an empty string. -/
def normPlace (indent : Bool) (st : NormSt) (sp ep : Pt)
    (add_token : List Char) : Option NormSt :=
  let next := fun (cs : List Char) (pi isz : Int) =>
    some { code_string := cs, prev_sp := some sp, prev_ep := ep,
           prev_indent := pi, indent_size := isz }
  if st.prev_sp = none ∨ sp = st.prev_ep then
    next (st.code_string ++ add_token) st.prev_indent st.indent_size
  else if sp.1 = st.prev_ep.1 then
    match st.code_string.getLast? with
    | none => none
    | some c =>
      next ((if c ≠ ' ' then st.code_string ++ [' '] else st.code_string) ++
              add_token)
        st.prev_indent st.indent_size
  else
    if indent ∧ add_token ≠ [] then
      let cs0 := st.code_string ++ ['\n']
      let isz :=
        if (sp.2 : Int) ≠ st.prev_indent ∧ st.prev_indent = 0 ∧
            st.indent_size = -1 then
          (sp.2 : Int) - st.prev_indent
        else st.indent_size
      let delta := (sp.2 : Int) - st.prev_indent
      if 0 < delta then
        if 2 * isz < delta then
          -- omit = True: indentation tracking skipped for this transition
          next (cs0 ++ add_token) st.prev_indent isz
        else
          next (cs0 ++
              (List.replicate (pyRangeCount st.prev_indent (sp.2 : Int) isz)
                (strL "<INDENT>")).flatten ++ add_token)
            (sp.2 : Int) isz
      else if delta < 0 then
        next (cs0 ++
            (List.replicate (pyRangeCount (sp.2 : Int) st.prev_indent isz)
              (strL "<DEDENT>")).flatten ++ add_token)
          (sp.2 : Int) isz
      else
        next (cs0 ++ add_token) (sp.2 : Int) isz
    else
      next (st.code_string ++ ['\n'] ++ List.replicate sp.2 ' ' ++ add_token)
        st.prev_indent st.indent_size

/-- The main loop of `norm_untokenize` (lines 637-766) over the zipped
entry list. -/
def normLoop (litnames : LitTypes) (lits : LitsHF) (comment : String)
    (indent : Bool) (stm : List (List Char × List Char))
    (scm : List (Char × List Char)) :
    List (Option TokPos × List Char × String) → NormSt → Option NormSt
  | [], st => some st
  | (pos, token, tp) :: rest, st =>
    if tp = "new_line" ∨ tp = "\n" then
      normLoop litnames lits comment indent stm scm rest
        { st with code_string := st.code_string ++ ['\n'] }
    else if tp = "endofstatement" then
      normLoop litnames lits comment indent stm scm rest
        { st with code_string := st.code_string ++ strL "<endofstatement>" }
    else
      match pos with
      | none => none
      | some p =>
        match p.1, p.2 with
        | Sum.inl sp, Sum.inl ep => do
          let add := normAddToken litnames lits comment stm scm token tp
          let st' ← normPlace indent st sp ep add
          normLoop litnames lits comment indent stm scm rest st'
        | _, _ => none

/-- Embedding of `norm_untokenize` (lines 584-768). -/
def norm_untokenize (poses : List (Option TokPos)) (tokens : List (List Char))
    (types : List String) (litnames : LitTypes) (lits : LitsHF)
    (comment : String) (indent : Bool) (stm : List (List Char × List Char))
    (scm : List (Char × List Char)) : Option (List Char) := do
  let entries := poses.zip (tokens.zip types)
  let stEnd ← normLoop litnames lits comment indent stm scm
    (entries.map fun e => (e.1, e.2.1, e.2.2))
    ⟨[], none, (0, 0), 0, -1⟩
  some (subWsNl (stEnd.code_string.dropWhile isPySpace))

/-- The `try` body of `normalize` (lines 529-548): parse, collect tokens,
merge negative numbers, tokenize and reassemble.  `none` is any exception
raised inside the `try`. -/
def normalizeBody (root : Option Node) (code : List Char) (lang : LanguageId)
    (lits : LitsHF) (comment : String) (indent preserve_statement : Bool)
    (stm : List (List Char × List Char)) (scm : List (Char × List Char)) :
    Option (List Char) := do
  let r ← root
  let (toks, tys) ← getTokens preserve_statement lang r ([], [])
  let lt ← lang2lits lang
  let (toks2, tys2) ← handle_negative_number toks tys lt.num
  let (poss, tokStrs, tys3) ← file_tokenizer code toks2 tys2 true
  norm_untokenize poss tokStrs tys3 lt lits comment indent stm scm

/-- Embedding of `normalize` (lines 469-550).  The external grammar/parse
provider supplies `root` (`none` when parsing raises, which the `except`
catches).  Any exception inside the `try` yields the empty string. -/
def normalize' (root : Option Node) (code : List Char) (lang : LanguageId)
    (litsArg : Option LitsHF) (comment : String)
    (indent preserve_statement : Bool) (stm : List (List Char × List Char))
    (special_chars : Option (List Char)) : List Char :=
  let lits := litsArg.getD ⟨[], [], [], []⟩
  let scm :=
    match special_chars with
    | none => []
    | some cs => specialCharsMap cs
  match normalizeBody root code lang lits comment indent preserve_statement
      stm scm with
  | none => []
  | some s => s

/-- A method record as far as the Ruby reopened-class merge is concerned:
its name and its `byte_span` (ruby_parser.py lines 220-230). -/
structure RMethod where
  name : String
  byte_span : Nat × Nat
deriving DecidableEq, Repr

/-- The result of `parse_class_node` on one discovered class node of
`RubyParser.class_nodes`: the node's byte span together with the record
fields used by `RubyParser.schema` (lines 299-383 and 394-405). -/
structure RClassBlock where
  namespace_prefix : String
  name : String
  span : Nat × Nat
  methods : List RMethod
deriving DecidableEq, Repr

/-- A class record of the Ruby schema output, as far as the merge is
concerned. -/
structure RClassRec where
  namespace_prefix : String
  name : String
  methods : List RMethod
deriving DecidableEq, Repr

/-- The `full_class_name` of line 396: namespace prefix plus class name. -/
def RClassBlock.qualName (b : RClassBlock) : String :=
  b.namespace_prefix ++ b.name

/-- The qualified name of an output class record. -/
def RClassRec.qualName (r : RClassRec) : String :=
  r.namespace_prefix ++ r.name

/-- The mutable locals of the `RubyParser.schema` loop (lines 390-393). -/
structure RSchemaSt where
  classes : List RClassRec
  class_names : List String
  spans : List (Nat × Nat)
  in_class_methods : List (Nat × Nat)
deriving DecidableEq, Repr

/-- `classes[idx]["methods"].extend(ms)` (line 403). -/
def appendMethodsAt (cs : List RClassRec) (idx : Nat) (ms : List RMethod) :
    List RClassRec :=
  match cs.get? idx with
  | some r => cs.set idx { r with methods := r.methods ++ ms }
  | none => cs

/-- One iteration of the `for c in self.class_nodes` loop of
`RubyParser.schema` (lines 394-405). -/
def rubySchemaStep (st : RSchemaSt) (c : RClassBlock) : RSchemaSt :=
  let full := c.qualName
  let st' :=
    if full ∉ st.class_names then
      { st with
        class_names := st.class_names ++ [full],
        classes := st.classes ++ [⟨c.namespace_prefix, c.name, c.methods⟩],
        spans := st.spans ++ [c.span] }
    else if c.span ∉ st.spans then
      { st with
        classes := appendMethodsAt st.classes (st.class_names.indexOf full)
          c.methods,
        spans := st.spans ++ [c.span] }
    else st
  { st' with
    in_class_methods := st'.in_class_methods ++
      c.methods.map (·.byte_span) }

/-- The final state of the `RubyParser.schema` class loop over the
discovered class blocks, in discovery order. -/
def rubySchemaFold (blocks : List RClassBlock) : RSchemaSt :=
  blocks.foldl rubySchemaStep ⟨[], [], [], []⟩

/-- The `classes` entry of the Ruby schema (lines 407-413). -/
def rubySchemaClasses (blocks : List RClassBlock) : List RClassRec :=
  (rubySchemaFold blocks).classes

/-- Helper for `dedupBySpan`, threading the set of spans already seen. -/
def dedupBySpanAux : List RClassBlock → List (Nat × Nat) → List RClassBlock
  | [], _ => []
  | b :: bs, seen =>
    if b.span ∈ seen then dedupBySpanAux bs seen
    else b :: dedupBySpanAux bs (seen ++ [b.span])

/-- The distinct class blocks of a discovery list, keeping the first
block carrying each byte span.  `RubyParser.class_nodes` (ruby_parser.py
lines 147-166) can report the same class block more than once — a
module-nested class is listed both by the namespace loop (lines 154-157)
and by the root-children loop (lines 160-163) — and the schema loop's
span tracking (the `spans` list of line 392 and the two `not in` guards
of lines 397 and 401) makes every rediscovery of an already-seen span a
no-op on the class records, so the schema's classes are determined by
this deduplicated list (see `rubySchemaStep_inv_dedup`). -/
def dedupBySpan (blocks : List RClassBlock) : List RClassBlock :=
  dedupBySpanAux blocks []

/-- The byte content of a file, as a list of byte values. -/
abbrev FileBytes := List Nat

/-- Python byte slicing `file_bytes[start:end]`. -/
def byteSlice (fileBytes : FileBytes) (s e : Nat) : FileBytes :=
  (fileBytes.take e).drop s

/-- Modelled from the spec: `LanguageParser.span_select`, the base-class
helper every parser uses to fill `original_string`, lives in
`source_parser/parsers/language_parser.py` which is not part of the
sources at hand (only its callers and tests are).  Spec section 3 pins its
contract: "`original_string == source_bytes[start_byte:end_byte]` always
holds for any extracted record", so selecting a node returns exactly the
byte-span slice of the parsed file bytes. -/
def span_select (fileBytes : FileBytes) (node : Node) : FileBytes :=
  byteSlice fileBytes node.startByte node.endByte

/-- The fields of a schema record relevant to byte-span fidelity, shared
by the method and class records of all six language parsers. -/
structure SpanRecord where
  original_string : FileBytes
  byte_span : Nat × Nat
  start_point : Pt
  end_point : Pt
deriving DecidableEq, Repr

/-- The record-construction pattern of `PythonParser._parse_method_node`
(python_parser.py lines 147-155): `original_string` from `span_select`,
`byte_span` from the node's byte offsets.  The same fields appear in the
`_parse_method_node` of the Ruby (line 222), C# (line 273) and C++
(line 231) parsers, and in jsts_parser.py lines 500-503 as the baseline
that line 513 may afterwards override — see
`jstsParseMethodRecordCore`. -/
def parseMethodRecordCore (starting_point : Nat) (fileBytes : FileBytes)
    (method_node : Node) : SpanRecord :=
  { original_string := span_select fileBytes method_node,
    byte_span := (method_node.startByte, method_node.endByte),
    start_point := (starting_point + method_node.startPoint.1,
                    method_node.startPoint.2),
    end_point := (starting_point + method_node.endPoint.1,
                  method_node.endPoint.2) }

/-- The record-construction pattern of `PythonParser._parse_class_node`
(python_parser.py lines 206-215); the same fields appear in the
`_parse_class_node` of the Ruby (line 313), C# (line 370) and C++
(line 324) parsers, and in jsts_parser.py lines 580-584 as the baseline
that line 595 may afterwards override — see
`jstsParseClassRecordCore`. -/
def parseClassRecordCore (starting_point : Nat) (fileBytes : FileBytes)
    (class_node : Node) : SpanRecord :=
  { original_string := span_select fileBytes class_node,
    byte_span := (class_node.startByte, class_node.endByte),
    start_point := (starting_point + class_node.startPoint.1,
                    class_node.startPoint.2),
    end_point := (starting_point + class_node.endPoint.1,
                  class_node.endPoint.2) }

/-- Embedding of `helpers.span_select` (helpers.py lines 84-88): slice the
file bytes by the record's `byte_span`. -/
def helpers_span_select (fileBytes : FileBytes) (rec : SpanRecord) :
    FileBytes :=
  byteSlice fileBytes rec.byte_span.1 rec.byte_span.2

/-- The wrapper dictionaries `_node2declaration` / `_node2export` of
`JSTSParser.update` (jsts_parser.py lines 138-140): maps keyed by an
inner node's `(start_byte, end_byte)` pair, holding the enclosing
declaration / expression-statement / export-statement node. -/
abbrev NodeDict := List ((Nat × Nat) × Node)

/-- Python `key in d` and `d[key]` on a wrapper dictionary. -/
def dictLookup (d : NodeDict) (k : Nat × Nat) : Option Node :=
  (d.find? (fun e => e.1 = k)).map (·.2)

/-- The tree-sitter `Node.text` attribute: the slice of the parsed
file's bytes over the node's span,
`file_bytes[node.start_byte:node.end_byte]`. -/
def nodeText (fileBytes : FileBytes) (node : Node) : FileBytes :=
  byteSlice fileBytes node.startByte node.endByte

/-- The `method_root_node` of `JSTSParser._parse_method_node`
(jsts_parser.py lines 489-494): the wrapper from `_node2declaration` if
the method's span is one of its keys, overridden by the wrapper from
`_node2export` if the span is one of its keys too. -/
def jstsMethodRootNode (node2declaration node2export : NodeDict)
    (method_node : Node) : Option Node :=
  match dictLookup node2export
      (method_node.startByte, method_node.endByte) with
  | some export_node => some export_node
  | none =>
      dictLookup node2declaration
        (method_node.startByte, method_node.endByte)

/-- The span fields of `JSTSParser._parse_method_node` (jsts_parser.py
lines 489-513).  Lines 500-503 fill the record exactly as the shared
pattern of `parseMethodRecordCore`; but when the method was discovered
through a declaration / expression / export wrapper — `method_root_node`
set by lines 489-494 — line 513 overwrites `original_string` with the
wrapper's text `method_root_node.text`, while `byte_span` (line 501)
keeps the inner method node's span. -/
def jstsParseMethodRecordCore (starting_point : Nat) (fileBytes : FileBytes)
    (node2declaration node2export : NodeDict) (method_node : Node) :
    SpanRecord :=
  let base := parseMethodRecordCore starting_point fileBytes method_node
  match jstsMethodRootNode node2declaration node2export method_node with
  | some method_root_node =>
      { base with original_string := nodeText fileBytes method_root_node }
  | none => base

/-- The span fields of `JSTSParser._parse_class_node` (jsts_parser.py
lines 573-595).  Lines 580-584 fill the record exactly as the shared
pattern of `parseClassRecordCore`; but when the class's span is a key of
`_node2export` — an exported class; lines 576-577 then set
`class_root_node` to the export statement — line 595 overwrites
`original_string` with `span_select` of that export wrapper, while
`byte_span` (line 582) keeps the inner class node's span.
Declaration-wrapped classes are exempt from the override (the guard of
line 594 tests only `_node2export`, see the comment on lines 592-593),
so `_node2declaration` does not affect these fields. -/
def jstsParseClassRecordCore (starting_point : Nat) (fileBytes : FileBytes)
    (node2export : NodeDict) (class_node : Node) : SpanRecord :=
  let base := parseClassRecordCore starting_point fileBytes class_node
  match dictLookup node2export
      (class_node.startByte, class_node.endByte) with
  | some export_node =>
      { base with original_string := span_select fileBytes export_node }
  | none => base

/-- The bytes of the one-statement JS file `export function f() \x7b \x7d`
(23 ASCII bytes). -/
def exJstsFileBytes : FileBytes :=
  "export function f() \x7b \x7d".data.map Char.toNat

/-- The `function_declaration` node of `exJstsFileBytes`, spanning bytes
7 to 23: the file's text without its `export ` prefix. -/
def exJstsMethodNode : Node :=
  ⟨"function_declaration", (0, 7), (0, 23), 7, 23, []⟩

/-- The `export_statement` node of `exJstsFileBytes`, spanning the whole
file, bytes 0 to 23. -/
def exJstsExportNode : Node :=
  ⟨"export_statement", (0, 0), (0, 23), 0, 23, [exJstsMethodNode]⟩

/-- The class records of a schema state carrying a given qualified name. -/
def classesFor (cs : List RClassRec) (q : String) : List RClassRec :=
  cs.filter fun r => r.qualName = q

/-- First-match method merge: the effect of
`classes[class_names.index(full)]["methods"].extend(ms)` expressed
structurally (see `appendMethodsAt_eq_mergeFirst`). -/
def mergeFirst (cs : List RClassRec) (q : String) (ms : List RMethod) :
    List RClassRec :=
  match cs with
  | [] => []
  | r :: rest =>
    if r.qualName = q then { r with methods := r.methods ++ ms } :: rest
    else r :: mergeFirst rest q ms

theorem appendMethodsAt_cons_succ (r : RClassRec) (rest : List RClassRec)
    (k : Nat) (ms : List RMethod) :
    appendMethodsAt (r :: rest) (k + 1) ms =
      r :: appendMethodsAt rest k ms := by
  unfold appendMethodsAt
  rw [List.get?_cons_succ]
  cases rest.get? k with
  | none => rfl
  | some r' => simp

theorem appendMethodsAt_eq_mergeFirst (cs : List RClassRec) (q : String)
    (ms : List RMethod) (hq : q ∈ cs.map RClassRec.qualName) :
    appendMethodsAt cs ((cs.map RClassRec.qualName).indexOf q) ms =
      mergeFirst cs q ms := by
  induction cs with
  | nil => simp at hq
  | cons r rest ih =>
    by_cases hr : r.qualName = q
    · rw [show (((r :: rest).map RClassRec.qualName).indexOf q) = 0 by
        simp [List.indexOf_cons, hr]]
      unfold appendMethodsAt mergeFirst
      simp [hr]
    · have hq' : q ∈ rest.map RClassRec.qualName := by
        simp only [List.map_cons, List.mem_cons] at hq
        exact hq.resolve_left fun habs => hr habs.symm
      rw [show (((r :: rest).map RClassRec.qualName).indexOf q) =
          ((rest.map RClassRec.qualName).indexOf q) + 1 by
        simp [List.indexOf_cons, hr]]
      rw [appendMethodsAt_cons_succ, ih hq']
      simp only [mergeFirst]
      rw [if_neg hr]

theorem qualName_set_methods (r : RClassRec) (ms : List RMethod) :
    ({ r with methods := ms } : RClassRec).qualName = r.qualName := rfl

theorem mergeFirst_map_qualName (cs : List RClassRec) (q : String)
    (ms : List RMethod) :
    (mergeFirst cs q ms).map RClassRec.qualName =
      cs.map RClassRec.qualName := by
  induction cs with
  | nil => rfl
  | cons r rest ih =>
    unfold mergeFirst
    by_cases hr : r.qualName = q
    · rw [if_pos hr]
      simp only [List.map_cons, qualName_set_methods]
    · rw [if_neg hr]
      simp only [List.map_cons, ih]

theorem classesFor_mergeFirst_self (cs : List RClassRec) (q : String)
    (ms : List RMethod) :
    classesFor (mergeFirst cs q ms) q =
      match classesFor cs q with
      | [] => []
      | r :: rest => { r with methods := r.methods ++ ms } :: rest := by
  induction cs with
  | nil => rfl
  | cons r rest ih =>
    by_cases hr : r.qualName = q
    · unfold mergeFirst
      rw [if_pos hr]
      unfold classesFor
      simp [List.filter_cons, qualName_set_methods, hr]
    · unfold mergeFirst
      rw [if_neg hr]
      unfold classesFor at ih ⊢
      simp only [List.filter_cons]
      rw [if_neg (by simp [hr]), if_neg (by simp [hr])]
      exact ih

theorem classesFor_mergeFirst_other (cs : List RClassRec) (q q' : String)
    (ms : List RMethod) (hne : q' ≠ q) :
    classesFor (mergeFirst cs q ms) q' = classesFor cs q' := by
  induction cs with
  | nil => rfl
  | cons r rest ih =>
    by_cases hr : r.qualName = q
    · unfold mergeFirst
      rw [if_pos hr]
      unfold classesFor
      have hrq : ¬ (r.qualName = q') := fun habs => hne (habs.symm.trans hr)
      simp only [List.filter_cons, qualName_set_methods]
      rw [if_neg (by simp [hrq]), if_neg (by simp [hrq])]
    · unfold mergeFirst
      rw [if_neg hr]
      unfold classesFor at ih ⊢
      simp only [List.filter_cons]
      rw [ih]

theorem classesFor_append_single (cs : List RClassRec) (r : RClassRec)
    (q : String) :
    classesFor (cs ++ [r]) q =
      classesFor cs q ++ (if r.qualName = q then [r] else []) := by
  unfold classesFor
  rw [List.filter_append]
  congr 1
  by_cases hr : r.qualName = q
  · simp [hr]
  · simp [hr]

/-- The invariant of the `RubyParser.schema` class loop after the blocks
`pre` have been processed. -/
def rubyInv (pre : List RClassBlock) (st : RSchemaSt) : Prop :=
  st.class_names = st.classes.map RClassRec.qualName ∧
  st.class_names.Nodup ∧
  st.spans = pre.map (·.span) ∧
  (∀ q : String,
    q ∈ st.class_names ↔ (pre.find? fun b => b.qualName = q).isSome) ∧
  (∀ q : String, classesFor st.classes q =
    match pre.find? (fun b => b.qualName = q) with
    | none => []
    | some b0 => [⟨b0.namespace_prefix, b0.name,
        (pre.filter (fun b' => b'.qualName = q)).flatMap (·.methods)⟩])

theorem rubyInv_init : rubyInv [] ⟨[], [], [], []⟩ := by
  refine ⟨rfl, List.nodup_nil, rfl, ?_, ?_⟩
  · intro q
    simp [List.find?]
  · intro q
    simp [classesFor, List.find?]

theorem rubySchemaStep_merge (st : RSchemaSt) (b : RClassBlock)
    (hfull : b.qualName ∈ st.class_names) (hsp : b.span ∉ st.spans) :
    rubySchemaStep st b =
      { classes := appendMethodsAt st.classes
          (st.class_names.indexOf b.qualName) b.methods,
        class_names := st.class_names,
        spans := st.spans ++ [b.span],
        in_class_methods := st.in_class_methods ++
          b.methods.map (·.byte_span) } := by
  simp only [rubySchemaStep]
  rw [if_neg (not_not_intro hfull), if_pos hsp]

theorem rubySchemaStep_new (st : RSchemaSt) (b : RClassBlock)
    (hfull : b.qualName ∉ st.class_names) :
    rubySchemaStep st b =
      { classes := st.classes ++ [⟨b.namespace_prefix, b.name, b.methods⟩],
        class_names := st.class_names ++ [b.qualName],
        spans := st.spans ++ [b.span],
        in_class_methods := st.in_class_methods ++
          b.methods.map (·.byte_span) } := by
  simp only [rubySchemaStep]
  rw [if_pos hfull]

theorem rubySchemaStep_inv (pre : List RClassBlock) (st : RSchemaSt)
    (b : RClassBlock) (hspan : b.span ∉ pre.map (·.span))
    (hinv : rubyInv pre st) :
    rubyInv (pre ++ [b]) (rubySchemaStep st b) := by
  obtain ⟨I1, I2, I3, I5, I4⟩ := hinv
  by_cases hfull : b.qualName ∈ st.class_names
  · rw [rubySchemaStep_merge st b hfull (by rw [I3]; exact hspan)]
    have hfull' : b.qualName ∈ st.classes.map RClassRec.qualName :=
      I1 ▸ hfull
    have hb : appendMethodsAt st.classes
        (st.class_names.indexOf b.qualName) b.methods =
        mergeFirst st.classes b.qualName b.methods := by
      rw [I1]
      exact appendMethodsAt_eq_mergeFirst _ _ _ hfull'
    rw [hb]
    refine ⟨?_, I2, ?_, ?_, ?_⟩
    · rw [mergeFirst_map_qualName]
      exact I1
    · simp [I3]
    · intro q
      rw [List.find?_append]
      constructor
      · intro hmem
        have hs := (I5 q).mp hmem
        cases hfp : pre.find? (fun b' => b'.qualName = q) with
        | none => rw [hfp] at hs; simp at hs
        | some b0 => simp [hfp]
      · intro hsome
        cases hfp : pre.find? (fun b' => b'.qualName = q) with
        | some b0 => exact (I5 q).mpr (by rw [hfp]; rfl)
        | none =>
          rw [hfp] at hsome
          simp only [Option.none_or] at hsome
          have hbq : b.qualName = q := by
            rcases List.find?_isSome.mp hsome with ⟨x, hx, hpx⟩
            rw [List.mem_singleton] at hx
            subst hx
            simpa using hpx
          rw [← hbq]
          exact hfull
    · intro q
      by_cases hq : q = b.qualName
      · have hs := (I5 q).mp (hq ▸ hfull)
        cases hfp : pre.find? (fun b' => b'.qualName = q) with
        | none => rw [hfp] at hs; simp at hs
        | some b0 =>
          have hI4 := I4 q
          rw [hfp] at hI4
          rw [← hq, classesFor_mergeFirst_self, hI4, List.find?_append, hfp,
            Option.or_some]
          have hfb : List.filter (fun b' => decide (b'.qualName = q)) [b] =
              [b] := by
            rw [List.filter_cons_of_pos (by simp [hq])]
            rfl
          rw [List.filter_append, hfb, List.flatMap_append]
          simp
      · rw [classesFor_mergeFirst_other _ _ _ _ hq, I4 q,
          List.find?_append]
        have hnb : List.find? (fun b' => b'.qualName = q) [b] = none := by
          rw [List.find?_cons_of_neg _ (by simpa using fun h => hq h.symm)]
          rfl
        have hfb : List.filter (fun b' => decide (b'.qualName = q)) [b] =
            [] := by
          rw [List.filter_cons_of_neg (by simpa using fun h => hq h.symm)]
          rfl
        rw [hnb, List.filter_append, hfb, List.append_nil]
        cases hfp : pre.find? (fun b' => b'.qualName = q) with
        | none => rw [Option.none_or]
        | some b0 => rw [Option.or_some]
  · rw [rubySchemaStep_new st b hfull]
    have hnone : pre.find? (fun b' => b'.qualName = b.qualName) = none := by
      cases hfp : pre.find? (fun b' => b'.qualName = b.qualName) with
      | none => rfl
      | some b0 =>
        exact absurd ((I5 b.qualName).mpr (by rw [hfp]; rfl)) hfull
    refine ⟨?_, ?_, ?_, ?_, ?_⟩
    · rw [I1, List.map_append]
      rfl
    · rw [List.nodup_append]
      refine ⟨I2, List.nodup_singleton _, ?_⟩
      intro a ha hb'
      rw [List.mem_singleton] at hb'
      subst hb'
      exact hfull ha
    · simp [I3]
    · intro q
      rw [List.find?_append, List.mem_append, List.mem_singleton]
      by_cases hq : q = b.qualName
      · subst hq
        simp [hnone]
      · rw [List.find?_cons_of_neg _ (by simpa using fun h => hq h.symm)]
        constructor
        · intro hmem
          rcases hmem with hmem | hmem
          · have hs := (I5 q).mp hmem
            cases hfp : pre.find? (fun b' => b'.qualName = q) with
            | none => rw [hfp] at hs; simp at hs
            | some b0 => simp [hfp]
          · exact absurd hmem hq
        · intro hsome
          cases hfp : pre.find? (fun b' => b'.qualName = q) with
          | some b0 => exact Or.inl ((I5 q).mpr (by rw [hfp]; rfl))
          | none =>
            rw [hfp] at hsome
            simp at hsome
    · intro q
      rw [classesFor_append_single, I4 q, List.find?_append]
      by_cases hq : q = b.qualName
      · have hnq : pre.find? (fun b' => b'.qualName = q) = none :=
          hq ▸ hnone
        have hpre : List.filter (fun b' => decide (b'.qualName = q)) pre =
            [] := by
          rw [List.filter_eq_nil_iff]
          intro b' hb'
          have := List.find?_eq_none.mp hnq b' hb'
          simpa using this
        have hpb : ((⟨b.namespace_prefix, b.name, b.methods⟩ :
            RClassRec).qualName = q) := by
          rw [hq]
          rfl
        rw [hnq, Option.none_or, if_pos hpb,
          List.find?_cons_of_pos _ (by simp [hq]),
          List.filter_append, hpre,
          List.filter_cons_of_pos (by simp [hq]), List.filter_nil]
        simp [RClassBlock.qualName]
      · have hcq : ¬ ((⟨b.namespace_prefix, b.name, b.methods⟩ :
            RClassRec).qualName = q) := fun habs => hq habs.symm
        rw [if_neg hcq, List.append_nil,
          List.find?_cons_of_neg _ (by simpa using fun h => hq h.symm),
          List.find?_nil]
        have hfb : List.filter (fun b' => decide (b'.qualName = q)) [b] =
            [] := by
          rw [List.filter_cons_of_neg (by simpa using fun h => hq h.symm)]
          rfl
        rw [List.filter_append, hfb, List.append_nil]
        cases hfp : pre.find? (fun b' => b'.qualName = q) with
        | none => rw [Option.none_or]
        | some b0 => rw [Option.or_some]

theorem rubySchema_inv (bs : List RClassBlock) :
    ∀ (pre : List RClassBlock) (st : RSchemaSt),
    ((pre ++ bs).map (·.span)).Nodup → rubyInv pre st →
    rubyInv (pre ++ bs) (bs.foldl rubySchemaStep st) := by
  induction bs with
  | nil =>
    intro pre st _ hinv
    simpa using hinv
  | cons b rest ih =>
    intro pre st hnd hinv
    have hspan : b.span ∉ pre.map (·.span) := by
      rw [List.map_append] at hnd
      have hd := List.disjoint_of_nodup_append hnd
      intro habs
      exact hd habs (by simp)
    have hstep := rubySchemaStep_inv pre st b hspan hinv
    have := ih (pre ++ [b]) (rubySchemaStep st b)
      (by simpa using hnd) hstep
    simpa using this

theorem dedupBySpanAux_append_single (l : List RClassBlock)
    (b : RClassBlock) : ∀ seen : List (Nat × Nat),
    dedupBySpanAux (l ++ [b]) seen =
      dedupBySpanAux l seen ++
        (if b.span ∈ seen ∨ b.span ∈ l.map (·.span) then [] else [b]) := by
  induction l with
  | nil =>
    intro seen
    by_cases h : b.span ∈ seen
    · simp [dedupBySpanAux, h]
    · simp [dedupBySpanAux, h]
  | cons c cs ih =>
    intro seen
    by_cases hc : c.span ∈ seen
    · simp only [List.cons_append, dedupBySpanAux, if_pos hc,
        List.append_eq, List.map_cons, List.mem_cons]
      rw [ih seen]
      have hcond : (b.span ∈ seen ∨ b.span ∈ cs.map (·.span)) ↔
          (b.span ∈ seen ∨ (b.span = c.span ∨ b.span ∈ cs.map (·.span))) := by
        constructor
        · rintro (h | h)
          · exact Or.inl h
          · exact Or.inr (Or.inr h)
        · rintro (h | h | h)
          · exact Or.inl h
          · exact Or.inl (h ▸ hc)
          · exact Or.inr h
      rw [if_congr hcond rfl rfl]
    · simp only [List.cons_append, dedupBySpanAux, if_neg hc,
        List.append_eq, List.map_cons, List.mem_cons]
      rw [ih (seen ++ [c.span])]
      have hcond : (b.span ∈ seen ++ [c.span] ∨ b.span ∈ cs.map (·.span)) ↔
          (b.span ∈ seen ∨ (b.span = c.span ∨ b.span ∈ cs.map (·.span))) := by
        rw [List.mem_append, List.mem_singleton]
        tauto
      rw [if_congr hcond rfl rfl]

theorem dedupBySpanAux_span_mem (l : List RClassBlock) :
    ∀ (seen : List (Nat × Nat)) (s : Nat × Nat),
    s ∈ (dedupBySpanAux l seen).map (·.span) ↔
      s ∉ seen ∧ s ∈ l.map (·.span) := by
  induction l with
  | nil =>
    intro seen s
    simp [dedupBySpanAux]
  | cons c cs ih =>
    intro seen s
    by_cases hc : c.span ∈ seen
    · simp only [dedupBySpanAux, if_pos hc, ih, List.map_cons, List.mem_cons]
      constructor
      · rintro ⟨h1, h2⟩
        exact ⟨h1, Or.inr h2⟩
      · rintro ⟨h1, h2 | h2⟩
        · exact absurd (h2 ▸ hc) h1
        · exact ⟨h1, h2⟩
    · simp only [dedupBySpanAux, if_neg hc, List.map_cons, List.mem_cons, ih]
      constructor
      · rintro (h | ⟨h1, h2⟩)
        · subst h
          exact ⟨hc, Or.inl rfl⟩
        · exact ⟨fun hs => h1 (List.mem_append_left _ hs), Or.inr h2⟩
      · rintro ⟨h1, h2 | h2⟩
        · exact Or.inl h2
        · by_cases hsc : s = c.span
          · exact Or.inl hsc
          · refine Or.inr ⟨?_, h2⟩
            intro habs
            rcases List.mem_append.mp habs with h | h
            · exact h1 h
            · rw [List.mem_singleton] at h
              exact hsc h

theorem dedupBySpanAux_subset (l : List RClassBlock) :
    ∀ (seen : List (Nat × Nat)) (b : RClassBlock),
    b ∈ dedupBySpanAux l seen → b ∈ l := by
  induction l with
  | nil =>
    intro seen b h
    simp [dedupBySpanAux] at h
  | cons c cs ih =>
    intro seen b h
    by_cases hc : c.span ∈ seen
    · simp only [dedupBySpanAux, if_pos hc] at h
      exact List.mem_cons_of_mem _ (ih _ _ h)
    · simp only [dedupBySpanAux, if_neg hc, List.mem_cons] at h
      rcases h with h | h
      · exact h ▸ List.mem_cons_self _ _
      · exact List.mem_cons_of_mem _ (ih _ _ h)

theorem dedupBySpan_append_single (l : List RClassBlock) (b : RClassBlock) :
    dedupBySpan (l ++ [b]) =
      if b.span ∈ l.map (·.span) then dedupBySpan l
      else dedupBySpan l ++ [b] := by
  unfold dedupBySpan
  rw [dedupBySpanAux_append_single]
  by_cases h : b.span ∈ l.map (·.span)
  · rw [if_pos (Or.inr h), if_pos h, List.append_nil]
  · rw [if_neg ?_, if_neg h]
    rintro (habs | habs)
    · simp at habs
    · exact h habs

theorem rubySchemaStep_skip (st : RSchemaSt) (b : RClassBlock)
    (hfull : b.qualName ∈ st.class_names) (hsp : b.span ∈ st.spans) :
    rubySchemaStep st b =
      { classes := st.classes,
        class_names := st.class_names,
        spans := st.spans,
        in_class_methods := st.in_class_methods ++
          b.methods.map (·.byte_span) } := by
  simp only [rubySchemaStep]
  rw [if_neg (not_not_intro hfull), if_neg (not_not_intro hsp)]

theorem rubySchemaStep_inv_dedup (pre : List RClassBlock) (st : RSchemaSt)
    (b : RClassBlock)
    (hdup : b.span ∈ pre.map (·.span) → b ∈ dedupBySpan pre)
    (hinv : rubyInv (dedupBySpan pre) st) :
    rubyInv (dedupBySpan (pre ++ [b])) (rubySchemaStep st b) := by
  by_cases hsp : b.span ∈ pre.map (·.span)
  · have hb : b ∈ dedupBySpan pre := hdup hsp
    obtain ⟨I1, I2, I3, I5, I4⟩ := hinv
    have hname : b.qualName ∈ st.class_names :=
      (I5 b.qualName).mpr (List.find?_isSome.mpr ⟨b, hb, by simp⟩)
    have hspan : b.span ∈ st.spans := by
      rw [I3]
      exact List.mem_map.mpr ⟨b, hb, rfl⟩
    rw [rubySchemaStep_skip st b hname hspan, dedupBySpan_append_single,
      if_pos hsp]
    exact ⟨I1, I2, I3, I5, I4⟩
  · rw [dedupBySpan_append_single, if_neg hsp]
    refine rubySchemaStep_inv (dedupBySpan pre) st b ?_ hinv
    intro habs
    exact hsp ((dedupBySpanAux_span_mem pre [] b.span).mp habs).2

theorem rubySchema_inv_dedup (bs : List RClassBlock) :
    ∀ (pre : List RClassBlock) (st : RSchemaSt),
    (∀ b ∈ pre ++ bs, ∀ b' ∈ pre ++ bs, b.span = b'.span → b = b') →
    rubyInv (dedupBySpan pre) st →
    rubyInv (dedupBySpan (pre ++ bs)) (bs.foldl rubySchemaStep st) := by
  induction bs with
  | nil =>
    intro pre st _ hinv
    simpa using hinv
  | cons b rest ih =>
    intro pre st hinj hinv
    have hbmem : b ∈ pre ++ b :: rest := by simp
    have hdup : b.span ∈ pre.map (·.span) → b ∈ dedupBySpan pre := by
      intro hsp
      have hmem : b.span ∈ (dedupBySpan pre).map (·.span) :=
        (dedupBySpanAux_span_mem pre [] b.span).mpr ⟨by simp, hsp⟩
      rcases List.mem_map.mp hmem with ⟨b1, hb1, hb1span⟩
      have hb1pre : b1 ∈ pre := dedupBySpanAux_subset pre [] b1 hb1
      have hb1b : b1 = b :=
        hinj b1 (List.mem_append_left _ hb1pre) b hbmem hb1span
      exact hb1b ▸ hb1
    have hstep := rubySchemaStep_inv_dedup pre st b hdup hinv
    have hinj' : ∀ x ∈ (pre ++ [b]) ++ rest, ∀ y ∈ (pre ++ [b]) ++ rest,
        x.span = y.span → x = y := by
      intro x hx y hy hxy
      exact hinj x (by simpa using hx) y (by simpa using hy) hxy
    have hres := ih (pre ++ [b]) (rubySchemaStep st b) hinj' hstep
    simpa using hres

/-- C2: if the same qualified class name occurs as two or more separate
(distinct-span) class blocks in one Ruby file, the schema contains
exactly one class record for that name, its method list is the
concatenation of the methods of all the distinct blocks in discovery
order, and — as long as the distinct blocks carry distinct method
byte-spans, as disjoint source blocks do — no method byte-span appears
twice.  The discovery list may rediscover the same block any number of
times, as `RubyParser.class_nodes` does for module-nested classes
(`hinj` asks only that rediscoveries of a span be the very same block,
which holds because `parse_class_node` is re-run on the same node); the
span tracking of lines 397-404 keeps every rediscovery from duplicating
the block's methods, so the record's methods are those of
`dedupBySpan blocks`, the distinct blocks in discovery order. -/
theorem C2_reopened_class_merge (blocks : List RClassBlock) (q : String)
    (hinj : ∀ b ∈ blocks, ∀ b' ∈ blocks, b.span = b'.span → b = b')
    (hq : 2 ≤ (dedupBySpan blocks).countP (fun b => b.qualName = q))
    (hms : ((((dedupBySpan blocks).filter (fun b => b.qualName = q)).flatMap
        (·.methods)).map (·.byte_span)).Nodup) :
    (rubySchemaClasses blocks).countP (fun r => r.qualName = q) = 1 ∧
    ∀ r ∈ rubySchemaClasses blocks, r.qualName = q →
      r.methods = ((dedupBySpan blocks).filter
        (fun b => b.qualName = q)).flatMap (·.methods) ∧
      (r.methods.map (·.byte_span)).Nodup := by
  have hinv := rubySchema_inv_dedup blocks [] ⟨[], [], [], []⟩
    (by simpa using hinj) rubyInv_init
  rw [List.nil_append] at hinv
  obtain ⟨I1, I2, I3, I5, I4⟩ := hinv
  have hex : ∃ x ∈ dedupBySpan blocks,
      (fun b => decide (b.qualName = q)) x := by
    have hpos : 0 < (dedupBySpan blocks).countP
        (fun b => decide (b.qualName = q)) := by
      omega
    exact List.countP_pos.mp hpos
  have hsome : ((dedupBySpan blocks).find?
      (fun b => b.qualName = q)).isSome :=
    List.find?_isSome.mpr hex
  cases hfp : (dedupBySpan blocks).find? (fun b => b.qualName = q) with
  | none =>
    rw [hfp] at hsome
    simp at hsome
  | some b0 =>
    have hI4 := I4 q
    rw [hfp] at hI4
    constructor
    · rw [List.countP_eq_length_filter]
      rw [show List.filter (fun r => decide (r.qualName = q))
          (rubySchemaClasses blocks) =
          classesFor (blocks.foldl rubySchemaStep ⟨[], [], [], []⟩).classes q
          from rfl]
      rw [hI4]
      rfl
    · intro r hr hrq
      have hrmem : r ∈ classesFor
          (blocks.foldl rubySchemaStep ⟨[], [], [], []⟩).classes q := by
        unfold classesFor
        rw [List.mem_filter]
        exact ⟨hr, by simpa using hrq⟩
      rw [hI4, List.mem_singleton] at hrmem
      subst hrmem
      exact ⟨rfl, hms⟩

theorem C2_reopened_class_merge_witness :
    (rubySchemaClasses
      [⟨"M::", "Foo", (0, 10), [⟨"m1", (2, 8)⟩]⟩,
       ⟨"M::", "Foo", (0, 10), [⟨"m1", (2, 8)⟩]⟩,
       ⟨"M::", "Bar", (12, 18), [⟨"x", (13, 17)⟩]⟩,
       ⟨"M::", "Foo", (20, 30), [⟨"m2", (22, 28)⟩]⟩,
       ⟨"M::", "Foo", (20, 30), [⟨"m2", (22, 28)⟩]⟩]).countP
      (fun r => r.qualName = "M::Foo") = 1 :=
  (C2_reopened_class_merge
    [⟨"M::", "Foo", (0, 10), [⟨"m1", (2, 8)⟩]⟩,
     ⟨"M::", "Foo", (0, 10), [⟨"m1", (2, 8)⟩]⟩,
     ⟨"M::", "Bar", (12, 18), [⟨"x", (13, 17)⟩]⟩,
     ⟨"M::", "Foo", (20, 30), [⟨"m2", (22, 28)⟩]⟩,
     ⟨"M::", "Foo", (20, 30), [⟨"m2", (22, 28)⟩]⟩]
    "M::Foo" (by decide) (by decide) (by decide)).1

/-- C1 counterexample: for the file `export function f() { }`, the JS/TS
parser records the exported function with `byte_span` (7, 23) — the span
of the inner `function_declaration` node — but, because the method was
discovered through the export wrapper (`_node2export` maps the span
(7, 23) to the `export_statement` node), jsts_parser.py line 513
overwrites `original_string` with the wrapper's text.  Slicing the
source bytes by the record's `byte_span` then yields `function f() { }`,
which lacks the leading `export ` of `original_string`, refuting the
claimed equality. -/
theorem C1_counterexample :
    helpers_span_select exJstsFileBytes
        (jstsParseMethodRecordCore 0 exJstsFileBytes []
          [((7, 23), exJstsExportNode)] exJstsMethodNode) ≠
      (jstsParseMethodRecordCore 0 exJstsFileBytes []
        [((7, 23), exJstsExportNode)] exJstsMethodNode).original_string := by
  decide

/-- C1 (amended): slicing the source bytes by a record's `byte_span`
reproduces `original_string` for the shared record pattern of the
Python, Ruby, C# and C++ parsers, and for JS/TS records whose node was
not discovered through a wrapper; but a JS/TS method discovered through
a declaration / expression / export wrapper, and an exported JS/TS
class, carry the wrapper node's text as `original_string` while
`byte_span` keeps the inner node's span, so for those records the
byte-span slice reproduces only the inner part of `original_string`
(with `span_select` modelled from the spec, see its doc comment). -/
theorem C1_byte_span_fidelity_except_wrappers (starting_point : Nat)
    (fileBytes : FileBytes) (node2declaration node2export : NodeDict)
    (node : Node) :
    (helpers_span_select fileBytes
        (parseMethodRecordCore starting_point fileBytes node) =
      (parseMethodRecordCore starting_point fileBytes node).original_string) ∧
    (helpers_span_select fileBytes
        (parseClassRecordCore starting_point fileBytes node) =
      (parseClassRecordCore starting_point fileBytes node).original_string) ∧
    (jstsMethodRootNode node2declaration node2export node = none →
      helpers_span_select fileBytes
          (jstsParseMethodRecordCore starting_point fileBytes
            node2declaration node2export node) =
        (jstsParseMethodRecordCore starting_point fileBytes
          node2declaration node2export node).original_string) ∧
    (∀ root, jstsMethodRootNode node2declaration node2export node =
        some root →
      (jstsParseMethodRecordCore starting_point fileBytes
          node2declaration node2export node).original_string =
        nodeText fileBytes root ∧
      (jstsParseMethodRecordCore starting_point fileBytes
          node2declaration node2export node).byte_span =
        (node.startByte, node.endByte)) ∧
    (dictLookup node2export (node.startByte, node.endByte) = none →
      helpers_span_select fileBytes
          (jstsParseClassRecordCore starting_point fileBytes node2export
            node) =
        (jstsParseClassRecordCore starting_point fileBytes node2export
          node).original_string) ∧
    (∀ root, dictLookup node2export (node.startByte, node.endByte) =
        some root →
      (jstsParseClassRecordCore starting_point fileBytes node2export
          node).original_string = span_select fileBytes root ∧
      (jstsParseClassRecordCore starting_point fileBytes node2export
          node).byte_span = (node.startByte, node.endByte)) := by
  refine ⟨rfl, rfl, ?_, ?_, ?_, ?_⟩
  · intro h
    simp only [jstsParseMethodRecordCore, h]
    rfl
  · intro root h
    simp [jstsParseMethodRecordCore, parseMethodRecordCore, h]
  · intro h
    simp only [jstsParseClassRecordCore, h]
    rfl
  · intro root h
    simp [jstsParseClassRecordCore, parseClassRecordCore, h]

theorem C1_byte_span_fidelity_except_wrappers_witness :
    (jstsParseMethodRecordCore 0 exJstsFileBytes []
        [((7, 23), exJstsExportNode)] exJstsMethodNode).original_string =
      nodeText exJstsFileBytes exJstsExportNode ∧
    (jstsParseMethodRecordCore 0 exJstsFileBytes []
        [((7, 23), exJstsExportNode)] exJstsMethodNode).byte_span =
      (exJstsMethodNode.startByte, exJstsMethodNode.endByte) :=
  (C1_byte_span_fidelity_except_wrappers 0 exJstsFileBytes []
      [((7, 23), exJstsExportNode)] exJstsMethodNode).2.2.2.1
    exJstsExportNode rfl

/-- C7: contrary to the claim (and to `prune`'s own docstring, which says
it will "remove lits only appearing once"), `prune` keeps any entry that
is among the `keep_num` most frequent, even when its count is 1: a
counter holding the single singleton entry `x ↦ 1` survives
`prune(50000)` unchanged. -/
theorem C7_prune_keeps_singletons :
    prune ⟨[], [(strL "x", 1)], [], []⟩ 50000 =
      ⟨[], [(strL "x", 1)], [], []⟩ := by decide

/-- C10: when the code text, after collapsing whitespace that precedes
each newline, contains fewer than two newline characters, `count_lits`
returns four empty counters, whatever the parse tree holds. -/
theorem C10_count_lits_newline_guard (lang : LanguageId) (token_limit : Nat)
    (code : List Char) (root : Option Node)
    (h : (subWsNl code).count '\n' < 2) :
    count_lits lang token_limit code root = emptyLits := by
  unfold count_lits
  simp [h]

theorem C10_count_lits_newline_guard_witness :
    (subWsNl (strL "x = 'abcdef'")).count '\n' < 2 ∧
    count_lits .PYTHON 50000 (strL "x = 'abcdef'") none = emptyLits :=
  ⟨by decide, C10_count_lits_newline_guard _ _ _ _ (by decide)⟩

/-- C4: `normalize` never raises; if any exception occurs during parsing,
token collection, literal classification or reassembly (that is, if the
`try` body `normalizeBody` fails), `normalize` returns the empty
string. -/
theorem C4_normalize_never_raises (root : Option Node) (code : List Char)
    (lang : LanguageId) (litsArg : Option LitsHF) (comment : String)
    (indent preserve_statement : Bool) (stm : List (List Char × List Char))
    (special_chars : Option (List Char))
    (h : normalizeBody root code lang (litsArg.getD ⟨[], [], [], []⟩) comment
        indent preserve_statement stm
        (match special_chars with
         | none => []
         | some cs => specialCharsMap cs) = none) :
    normalize' root code lang litsArg comment indent preserve_statement stm
      special_chars = [] := by
  unfold normalize'
  simp only [h]

theorem C4_normalize_never_raises_witness :
    normalizeBody none (strL "a = 1") .PYTHON ⟨[], [], [], []⟩ "remove" true
        false [] [] = none ∧
    normalize' none (strL "a = 1") .PYTHON none "remove" true false [] none
      = [] :=
  ⟨rfl, C4_normalize_never_raises none (strL "a = 1") .PYTHON none "remove"
    true false [] none rfl⟩

/-- C6 fails for character literals: counting a C `char_literal` token
whose canonical value (30 characters, quotes stripped) is longer than 25
still adds it to the `char` frequency counter — the length guard of the
string branch has no counterpart in the char branch (lines 422-430). -/
theorem C6_counterexample :
    25 < (List.replicate 30 'a').length ∧
    lang2lits .C =
      some ⟨["number_literal"], ["string_literal"], ["char_literal"], []⟩ ∧
    (processLitToken
        ⟨["number_literal"], ["string_literal"], ["char_literal"], []⟩
        emptyLits ('\'' :: (List.replicate 30 'a' ++ ['\'']))
        "char_literal").char =
      [(List.replicate 30 'a', 1)] := by decide

/-- C6 (amended): every string literal whose canonical value (the group
extracted by the quote patterns) is longer than 25 characters is rejected
and contributes nothing to the frequency table; character literals,
however, are counted with no length bound. -/
theorem C6_long_string_literals_rejected (lt : LitTypes) (lits : LitsDict)
    (token : List Char) (tp : String) (strlit : List Char)
    (hnum : tp ∉ lt.num) (hstr : tp ∈ lt.str)
    (hm : firstQuoteMatch strQuoteOptions token = some strlit)
    (hlen : 25 < strlit.length) :
    processLitToken lt lits token tp = lits := by
  unfold processLitToken
  simp only [hm]
  rw [if_neg hnum, if_pos hstr, if_neg (by omega)]

theorem C6_long_string_literals_rejected_witness :
    processLitToken ⟨["number_literal"], ["string_literal"], ["char_literal"],
        []⟩ emptyLits ('"' :: (List.replicate 30 'a' ++ ['"']))
      "string_literal" = emptyLits :=
  C6_long_string_literals_rejected _ _ _ _ (List.replicate 30 'a')
    (by decide) (by decide) (by decide) (by decide)

/-- No two consecutive entries of the token-position list are the
end-of-statement marker `[-1, -1]`. -/
def noAdjEos (toks : List TokPos) : Prop :=
  ∀ i : Nat, ¬(toks.get? i = some eosTok ∧ toks.get? (i + 1) = some eosTok)

/-- The `tokens` and `types` lists are appended in lockstep: equal length,
and a marker position entry always carries the `endofstatement` type. -/
def eosLockstep (acc : TokAcc) : Prop :=
  acc.1.length = acc.2.length ∧
  ∀ i : Nat, acc.1.get? i = some eosTok → acc.2.get? i = some "endofstatement"

theorem get?_append_single {α : Type} (l : List α) (x : α) (i : Nat) :
    (l ++ [x]).get? i =
      if i < l.length then l.get? i
      else if i = l.length then some x else none := by
  by_cases h1 : i < l.length
  · rw [if_pos h1, List.get?_append h1]
  · rw [if_neg h1]
    by_cases h2 : i = l.length
    · subst h2
      rw [if_pos rfl, List.get?_concat_length]
    · rw [if_neg h2, List.get?_eq_none.mpr (by simp; omega)]

theorem lockstep_append (acc : TokAcc) (t : TokPos) (ty : String)
    (h : eosLockstep acc) (him : t = eosTok → ty = "endofstatement") :
    eosLockstep (acc.1 ++ [t], acc.2 ++ [ty]) := by
  obtain ⟨hlen, hes⟩ := h
  refine ⟨by simp [hlen], ?_⟩
  intro i hi
  rw [get?_append_single] at hi
  rw [get?_append_single]
  by_cases h1 : i < acc.1.length
  · rw [if_pos h1] at hi
    rw [if_pos (by omega)]
    exact hes i hi
  · rw [if_neg h1] at hi
    by_cases h2 : i = acc.1.length
    · rw [if_pos h2] at hi
      rw [if_neg (by omega), if_pos (by omega)]
      exact congrArg some (him (Option.some.inj hi))
    · rw [if_neg h2] at hi
      exact Option.noConfusion hi

theorem noAdjEos_append_span (l : List TokPos) (x : TokPos)
    (hx : x ≠ eosTok) (h : noAdjEos l) : noAdjEos (l ++ [x]) := by
  intro i ⟨h1, h2⟩
  rw [get?_append_single] at h1 h2
  by_cases ha : i + 1 < l.length
  · rw [if_pos ha] at h2
    rw [if_pos (by omega)] at h1
    exact h i ⟨h1, h2⟩
  · by_cases hb : i + 1 = l.length
    · rw [if_neg (by omega), if_pos hb] at h2
      exact hx (Option.some.inj h2)
    · rw [if_neg (by omega), if_neg (by omega)] at h2
      exact Option.noConfusion h2

theorem noAdjEos_append_eos (l : List TokPos)
    (h : noAdjEos l) (hl : l.getLast? ≠ some eosTok) :
    noAdjEos (l ++ [eosTok]) := by
  intro i ⟨h1, h2⟩
  rw [get?_append_single] at h1 h2
  by_cases ha : i + 1 < l.length
  · rw [if_pos ha] at h2
    rw [if_pos (by omega)] at h1
    exact h i ⟨h1, h2⟩
  · by_cases hb : i + 1 = l.length
    · rw [if_pos (by omega)] at h1
      apply hl
      rw [List.getLast?_eq_get?]
      have : l.length - 1 = i := by omega
      rw [this]
      exact h1
    · rw [if_neg (by omega), if_neg (by omega)] at h2
      exact Option.noConfusion h2

theorem appendMarker_inv {acc res : TokAcc} (h : appendMarker acc = some res)
    (hls : eosLockstep acc) (hna : noAdjEos acc.1) :
    eosLockstep res ∧ noAdjEos res.1 := by
  unfold appendMarker at h
  cases hg : acc.2.getLast? with
  | none =>
    rw [hg] at h
    exact Option.noConfusion h
  | some t =>
    simp only [hg] at h
    by_cases ht : t ≠ "endofstatement"
    · rw [if_pos ht] at h
      cases h
      constructor
      · exact lockstep_append acc eosTok "endofstatement" hls fun _ => rfl
      · apply noAdjEos_append_eos _ hna
        intro habs
        rw [List.getLast?_eq_get?] at habs hg
        have hlast := hls.2 _ habs
        rw [hls.1] at hlast
        rw [hg] at hlast
        exact ht (Option.some.inj hlast)
    · rw [if_neg ht] at h
      cases h
      exact ⟨hls, hna⟩

mutual

theorem getTokens_eos_inv (preserve : Bool) (lang : LanguageId)
    (node : Node) (acc res : TokAcc) (hls : eosLockstep acc)
    (hna : noAdjEos acc.1) (h : getTokens preserve lang node acc = some res) :
    eosLockstep res ∧ noAdjEos res.1 := by
  match node with
  | .mk ty sp ep sb eb children =>
    rw [getTokens] at h
    split at h
    · cases h
      constructor
      · exact lockstep_append acc _ ty hls (by simp [eosTok])
      · exact noAdjEos_append_span _ _ (by simp [eosTok]) hna
    · split at h
      · cases hh : children.head? with
        | none =>
          rw [hh] at h
          exact Option.noConfusion h
        | some c0 =>
          rw [hh] at h
          cases hg : children.getLast? with
          | none =>
            rw [hg] at h
            exact Option.noConfusion h
          | some cn =>
            rw [hg] at h
            simp only [Option.bind_eq_bind, Option.some_bind] at h
            cases h
            constructor
            · exact lockstep_append acc _ ty hls (by simp [eosTok])
            · exact noAdjEos_append_span _ _ (by simp [eosTok]) hna
      · exact getTokensList_eos_inv preserve lang children acc res hls hna h
termination_by sizeOf node

theorem getTokensList_eos_inv (preserve : Bool) (lang : LanguageId)
    (l : List Node) (acc res : TokAcc) (hls : eosLockstep acc)
    (hna : noAdjEos acc.1)
    (h : getTokensList preserve lang l acc = some res) :
    eosLockstep res ∧ noAdjEos res.1 := by
  match l with
  | [] =>
    rw [getTokensList] at h
    cases h
    exact ⟨hls, hna⟩
  | c :: cs =>
    rw [getTokensList] at h
    cases h1 : getTokens preserve lang c acc with
    | none =>
      rw [h1] at h
      exact Option.noConfusion h
    | some acc1 =>
      rw [h1] at h
      simp only [Option.bind_eq_bind, Option.some_bind] at h
      obtain ⟨hls1, hna1⟩ :=
        getTokens_eos_inv preserve lang c acc acc1 hls hna h1
      by_cases hp : preserve = true
      · rw [if_pos hp] at h
        by_cases hsub : strContains c.type_ "statement" = true
        · rw [if_pos hsub] at h
          cases h2 : appendMarker acc1 with
          | none =>
            rw [h2] at h
            exact Option.noConfusion h
          | some acc2 =>
            rw [h2] at h
            simp only [Option.bind_eq_bind, Option.some_bind] at h
            obtain ⟨hls2, hna2⟩ := appendMarker_inv h2 hls1 hna1
            exact getTokensList_eos_inv preserve lang cs acc2 res hls2 hna2 h
        · rw [if_neg hsub] at h
          cases hlk : lang2statements lang with
          | none =>
            rw [hlk] at h
            exact Option.noConfusion h
          | some stmts =>
            rw [hlk] at h
            simp only [Option.bind_eq_bind, Option.some_bind] at h
            by_cases hmem : c.type_ ∈ stmts
            · rw [if_pos hmem] at h
              cases h2 : appendMarker acc1 with
              | none =>
                rw [h2] at h
                exact Option.noConfusion h
              | some acc2 =>
                rw [h2] at h
                simp only [Option.bind_eq_bind, Option.some_bind] at h
                obtain ⟨hls2, hna2⟩ := appendMarker_inv h2 hls1 hna1
                exact getTokensList_eos_inv preserve lang cs acc2 res hls2
                  hna2 h
            · rw [if_neg hmem] at h
              exact getTokensList_eos_inv preserve lang cs acc1 res hls1
                hna1 h
      · rw [if_neg hp] at h
        exact getTokensList_eos_inv preserve lang cs acc1 res hls1 hna1 h
termination_by sizeOf l

end

/-- C8: with statement-marker mode enabled, the collected token stream
never contains two consecutive end-of-statement markers: whenever
`get_tokens` succeeds, no two adjacent entries of the produced position
list are the `[-1, -1]` marker. -/
theorem C8_no_adjacent_markers (lang : LanguageId) (node : Node)
    (res : TokAcc) (h : getTokens true lang node ([], []) = some res) :
    noAdjEos res.1 :=
  (getTokens_eos_inv true lang node ([], []) res
    ⟨rfl, fun i hi => by simp at hi⟩
    (fun i hand => by simp at hand) h).2

theorem C8_no_adjacent_markers_witness :
    noAdjEos [(Sum.inl (0, 0), Sum.inl (0, 12)), eosTok,
              (Sum.inl (1, 0), Sum.inl (1, 3))] :=
  C8_no_adjacent_markers .CSHARP
    (.mk "compilation_unit" (0, 0) (1, 3) 0 16
      [.mk "using_directive" (0, 0) (0, 12) 0 12 [],
       .mk "identifier" (1, 0) (1, 3) 13 16 []])
    ([(Sum.inl (0, 0), Sum.inl (0, 12)), eosTok,
      (Sum.inl (1, 0), Sum.inl (1, 3))],
     ["using_directive", "endofstatement", "identifier"])
    (by
      simp only [getTokens, getTokensList, appendMarker, Node.type_,
        lang2statements, eosTok]
      decide)

theorem countOf_cons (p : List Char × Nat) (c : PyCounter)
    (key : List Char) :
    countOf (p :: c) key = (if p.1 = key then p.2 else 0) + countOf c key := by
  simp [countOf]

theorem countOf_counterAdd (c : PyCounter) (k : List Char) (v : Nat)
    (key : List Char) :
    countOf (counterAdd c k v) key =
      countOf c key + (if k = key then v else 0) := by
  induction c with
  | nil => simp [counterAdd, countOf]
  | cons p rest ih =>
    rcases p with ⟨pk, pv⟩
    by_cases hpk : pk = k
    · subst hpk
      simp [counterAdd, countOf_cons]
      split_ifs <;> omega
    · simp only [counterAdd, if_neg hpk, countOf_cons, ih]
      omega

theorem countOf_counterUpdate (c d : PyCounter) (key : List Char) :
    countOf (counterUpdate c d) key = countOf c key + countOf d key := by
  induction d generalizing c with
  | nil => simp [counterUpdate, countOf]
  | cons p rest ih =>
    simp only [counterUpdate, List.foldl_cons] at ih ⊢
    rw [ih (counterAdd c p.1 p.2), countOf_counterAdd, countOf_cons]
    omega

theorem countOf_litsUpdate (lc : LitsDict) (ls : List LitsDict)
    (key : List Char) :
    countOf (litsUpdate lc ls).num key =
      countOf lc.num key + (ls.map fun d => countOf d.num key).sum ∧
    countOf (litsUpdate lc ls).str key =
      countOf lc.str key + (ls.map fun d => countOf d.str key).sum ∧
    countOf (litsUpdate lc ls).char key =
      countOf lc.char key + (ls.map fun d => countOf d.char key).sum ∧
    countOf (litsUpdate lc ls).regex key =
      countOf lc.regex key + (ls.map fun d => countOf d.regex key).sum := by
  induction ls generalizing lc with
  | nil => simp [litsUpdate]
  | cons d rest ih =>
    simp only [litsUpdate, List.foldl_cons, List.map_cons, List.sum_cons]
      at ih ⊢
    obtain ⟨h1, h2, h3, h4⟩ := ih
      (LitsDict.mk (counterUpdate lc.num d.num) (counterUpdate lc.str d.str)
        (counterUpdate lc.char d.char) (counterUpdate lc.regex d.regex))
    refine ⟨?_, ?_, ?_, ?_⟩
    · rw [h1, countOf_counterUpdate]; omega
    · rw [h2, countOf_counterUpdate]; omega
    · rw [h3, countOf_counterUpdate]; omega
    · rw [h4, countOf_counterUpdate]; omega

/-- C9: the frequency-table update is commutative and associative for
counting: applying a permutation of a list of per-file literal-count
dicts yields the same counts for every key in every kind, and applying a
concatenation equals applying the two parts in sequence. -/
theorem C9_update_order_independent :
    (∀ (lc : LitsDict) (ls1 ls2 : List LitsDict), ls1.Perm ls2 →
      ∀ key : List Char,
        countOf (litsUpdate lc ls1).num key =
          countOf (litsUpdate lc ls2).num key ∧
        countOf (litsUpdate lc ls1).str key =
          countOf (litsUpdate lc ls2).str key ∧
        countOf (litsUpdate lc ls1).char key =
          countOf (litsUpdate lc ls2).char key ∧
        countOf (litsUpdate lc ls1).regex key =
          countOf (litsUpdate lc ls2).regex key) ∧
    (∀ (lc : LitsDict) (la lb : List LitsDict),
      litsUpdate lc (la ++ lb) = litsUpdate (litsUpdate lc la) lb) := by
  constructor
  · intro lc ls1 ls2 hp key
    obtain ⟨a1, b1, c1, d1⟩ := countOf_litsUpdate lc ls1 key
    obtain ⟨a2, b2, c2, d2⟩ := countOf_litsUpdate lc ls2 key
    refine ⟨?_, ?_, ?_, ?_⟩
    · rw [a1, a2, (hp.map fun d => countOf d.num key).sum_eq]
    · rw [b1, b2, (hp.map fun d => countOf d.str key).sum_eq]
    · rw [c1, c2, (hp.map fun d => countOf d.char key).sum_eq]
    · rw [d1, d2, (hp.map fun d => countOf d.regex key).sum_eq]
  · intro lc la lb
    unfold litsUpdate
    rw [List.foldl_append]

theorem C9_update_order_independent_witness :
    countOf
      (litsUpdate emptyLits
        [⟨[(strL "1", 2)], [], [], []⟩, ⟨[(strL "1", 3)], [], [], []⟩]).num
      (strL "1") =
    countOf
      (litsUpdate emptyLits
        [⟨[(strL "1", 3)], [], [], []⟩, ⟨[(strL "1", 2)], [], [], []⟩]).num
      (strL "1") :=
  (C9_update_order_independent.1 emptyLits
    [⟨[(strL "1", 2)], [], [], []⟩, ⟨[(strL "1", 3)], [], [], []⟩]
    [⟨[(strL "1", 3)], [], [], []⟩, ⟨[(strL "1", 2)], [], [], []⟩]
    (List.Perm.swap (⟨[(strL "1", 3)], [], [], []⟩ : LitsDict)
      (⟨[(strL "1", 2)], [], [], []⟩ : LitsDict) []) (strL "1")).1

/-- C5 fails as stated: a `concatenated_string` node is NOT emitted as one
leaf token — the collector descends into it and emits one token per child
string.  The `not in [...] and "string" in ... or "char" in ...` condition
of lines 140-144 excludes the composite markers from the one-token branch
instead of selecting them. -/
theorem C5_counterexample :
    getTokens false .PYTHON
      (.mk "concatenated_string" (0, 0) (0, 9) 0 9
        [.mk "string" (0, 0) (0, 4) 0 4
           [.mk "\"" (0, 0) (0, 1) 0 1 [], .mk "\"" (0, 3) (0, 4) 3 4 []],
         .mk "string" (0, 5) (0, 9) 5 9
           [.mk "\"" (0, 5) (0, 6) 5 6 [], .mk "\"" (0, 8) (0, 9) 8 9 []]])
      ([], []) =
      some ([(Sum.inl (0, 0), Sum.inl (0, 4)),
             (Sum.inl (0, 5), Sum.inl (0, 9))], ["string", "string"]) := by
  simp only [getTokens, getTokensList, Node.children, Node.type_,
    Node.startPoint, Node.endPoint]
  decide

/-- C5 (amended): a node with children whose type contains "string" but is
NOT one of the composite markers `concatenated_string`, `string_array`,
`chained_string` (or whose type contains "char") is emitted as one leaf
token spanning its first child's start to its last child's end, children
never descended into; a composite-marker node is instead descended into
child by child. -/
theorem C5_composite_strings_descended :
    (∀ (preserve : Bool) (lang : LanguageId) (ty : String) (sp ep : Pt)
       (sb eb : Nat) (c0 : Node) (cs : List Node) (acc : TokAcc),
       ((ty ∉ compositeStringTypes ∧ strContains ty "string") ∨
         strContains ty "char") →
       getTokens preserve lang (.mk ty sp ep sb eb (c0 :: cs)) acc =
         some (acc.1 ++ [(Sum.inl c0.startPoint,
                          Sum.inl ((c0 :: cs).getLast (by simp)).endPoint)],
               acc.2 ++ [ty])) ∧
    (∀ (preserve : Bool) (lang : LanguageId) (ty : String) (sp ep : Pt)
       (sb eb : Nat) (children : List Node) (acc : TokAcc),
       children ≠ [] → ty ∈ compositeStringTypes →
       getTokens preserve lang (.mk ty sp ep sb eb children) acc =
         getTokensList preserve lang children acc) := by
  constructor
  · intro preserve lang ty sp ep sb eb c0 cs acc hcond
    have hb : (decide (ty ∉ compositeStringTypes) && strContains ty "string"
        || strContains ty "char") = true := by
      rcases hcond with ⟨hni, hs⟩ | hc
      · simp [hni, hs]
      · simp [hc]
    rw [getTokens, if_neg (by simp), hb]
    simp [List.getLast?_eq_getLast _ (List.cons_ne_nil c0 cs)]
  · intro preserve lang ty sp ep sb eb children acc hne hmem
    have hb : (decide (ty ∉ compositeStringTypes) && strContains ty "string"
        || strContains ty "char") = false := by
      simp only [compositeStringTypes, List.mem_cons, List.not_mem_nil,
        or_false] at hmem
      rcases hmem with rfl | rfl | rfl <;> decide
    rw [getTokens, if_neg (by simpa [List.length_eq_zero] using hne), hb]
    simp

theorem pyGet_sub_one_isSome {α : Type} (l : List α) (i : Nat)
    (h : i < l.length) : (pyGet l ((i : Int) - 1)).isSome := by
  unfold pyGet
  by_cases h0 : (i : Int) - 1 < 0
  · rw [if_pos h0, if_neg (by omega)]
    have he : ((l.length : Int) + ((i : Int) - 1)).toNat = l.length - 1 := by
      omega
    rw [he, List.get?_eq_get (show l.length - 1 < l.length by omega)]
    rfl
  · rw [if_neg h0]
    have he : ((i : Int) - 1).toNat = i - 1 := by omega
    rw [he, List.get?_eq_get (show i - 1 < l.length by omega)]
    rfl

theorem eraseIdx_length_eq {α : Type} (l : List α) (i : Nat)
    (h : i < l.length) : (l.eraseIdx i).length = l.length - 1 := by
  induction l generalizing i with
  | nil => simp at h
  | cons a l ih =>
    cases i with
    | zero => simp [List.eraseIdx]
    | succ n =>
      simp only [List.eraseIdx, List.length_cons]
      rw [ih n (by simpa using h)]
      simp at h
      omega

theorem hnnLoop_step {tokens : List TokPos} {types : List String}
    {nt : List String} {i : Nat} {r : List TokPos × List String}
    (h : i < types.length) (hdash : types.get ⟨i, h⟩ = "-")
    (hc : handle_negative_case tokens types i nt = some r) :
    hnnLoop tokens types nt i = hnnLoop r.1 r.2 nt (i + 1) := by
  rw [hnnLoop, dif_pos h, if_pos hdash]
  split
  · rename_i heq
    rw [hc] at heq
    exact Option.noConfusion heq
  · rename_i r' heq
    rw [hc] at heq
    cases heq
    rfl

theorem hnnLoop_skip {tokens : List TokPos} {types : List String}
    {nt : List String} {i : Nat}
    (h : i < types.length) (hdash : types.get ⟨i, h⟩ ≠ "-") :
    hnnLoop tokens types nt i = hnnLoop tokens types nt (i + 1) := by
  rw [hnnLoop, dif_pos h, if_neg hdash]

theorem hnnLoop_done {tokens : List TokPos} {types : List String}
    {nt : List String} {i : Nat} (h : ¬ i < types.length) :
    hnnLoop tokens types nt i = some (tokens, types) := by
  rw [hnnLoop, dif_neg h]

/-- C3 fails as stated: when the `-` token is the very first token of the
stream, Python's `types[negative_index - 1]` wraps around to the LAST
token; with stream `-`, `integer`, `=` the trailing `=` is an operator, so
the stream-initial `-` (which has no preceding token at all) is merged
with the following numeric literal. -/
theorem C3_counterexample :
    handle_negative_number
      [(Sum.inl (0, 0), Sum.inl (0, 1)), (Sum.inl (0, 2), Sum.inl (0, 3)),
       (Sum.inl (0, 4), Sum.inl (0, 5))]
      ["-", "integer", "="] ["integer", "float"] =
      some ([(Sum.inl (0, 0), Sum.inl (0, 3)),
             (Sum.inl (0, 4), Sum.inl (0, 5))], ["integer", "="]) := by
  unfold handle_negative_number
  rw [hnnLoop_step (by decide) (by decide)
      (show handle_negative_case
          [(Sum.inl (0, 0), Sum.inl (0, 1)), (Sum.inl (0, 2), Sum.inl (0, 3)),
           (Sum.inl (0, 4), Sum.inl (0, 5))]
          ["-", "integer", "="] 0 ["integer", "float"] =
          some ([(Sum.inl (0, 0), Sum.inl (0, 3)),
                 (Sum.inl (0, 4), Sum.inl (0, 5))], ["integer", "="]) from
        by decide),
    hnnLoop_skip (by decide) (by decide), hnnLoop_done (by decide)]

/-- C3 (amended): a `-` token immediately followed by a numeric-literal
token is merged into a single negative-number token exactly when the
token type at Python index `negative_index - 1` — the preceding token,
or, by Python's negative-index wraparound, the LAST token of the stream
when the `-` is first — is an operator, a comma or an opening bracket; in
particular `a - 3` keeps `-` and `3` separate while `a = -3` merges them
into one numeric token. -/
theorem C3_negative_merge_iff :
    (∀ (tokens : List TokPos) (types : List String) (i : Nat)
       (nt : List String),
       tokens.length = types.length → i + 1 < types.length →
       ((handle_negative_case tokens types i nt).map (fun r => r.2.length) =
           some (types.length - 1) ↔
         ((types.get? (i + 1)).getD "" ∈ nt ∧
           negMergeCond ((pyGet types ((i : Int) - 1)).getD "")))) ∧
    handle_negative_number
      [(Sum.inl (0, 0), Sum.inl (0, 1)), (Sum.inl (0, 2), Sum.inl (0, 3)),
       (Sum.inl (0, 4), Sum.inl (0, 5))]
      ["identifier", "-", "integer"] ["integer", "float"] =
      some ([(Sum.inl (0, 0), Sum.inl (0, 1)), (Sum.inl (0, 2),
             Sum.inl (0, 3)), (Sum.inl (0, 4), Sum.inl (0, 5))],
            ["identifier", "-", "integer"]) ∧
    handle_negative_number
      [(Sum.inl (0, 0), Sum.inl (0, 1)), (Sum.inl (0, 2), Sum.inl (0, 3)),
       (Sum.inl (0, 4), Sum.inl (0, 5)), (Sum.inl (0, 5), Sum.inl (0, 6))]
      ["identifier", "=", "-", "integer"] ["integer", "float"] =
      some ([(Sum.inl (0, 0), Sum.inl (0, 1)), (Sum.inl (0, 2),
             Sum.inl (0, 3)), (Sum.inl (0, 4), Sum.inl (0, 6))],
            ["identifier", "=", "integer"]) := by
  refine ⟨?_, ?_, ?_⟩
  · intro tokens types i nt hlen hi
    have ht1 : types.get? (i + 1) = some (types.get ⟨i + 1, hi⟩) :=
      List.get?_eq_get hi
    obtain ⟨tprev, htprev⟩ :=
      Option.isSome_iff_exists.mp
        (pyGet_sub_one_isSome types i (by omega))
    unfold handle_negative_case
    simp only [ht1, htprev, Option.getD_some]
    by_cases hmem : types.get ⟨i + 1, hi⟩ ∈ nt
    · rw [if_neg (not_not_intro hmem)]
      by_cases hc : negMergeCond tprev = true
      · rw [if_pos hc]
        have hti : tokens.get? i = some (tokens.get ⟨i, by omega⟩) :=
          List.get?_eq_get (by omega)
        have hti1 : tokens.get? (i + 1) =
            some (tokens.get ⟨i + 1, by omega⟩) :=
          List.get?_eq_get (by omega)
        simp only [hti, hti1, Option.map_some']
        rw [eraseIdx_length_eq _ _
          (by rw [List.length_set]; omega), List.length_set]
        exact iff_of_true rfl ⟨hmem, hc⟩
      · rw [if_neg hc]
        simp only [Option.map_some']
        constructor
        · intro habs
          have : types.length = types.length - 1 :=
            Option.some.inj habs
          omega
        · intro hand
          exact absurd hand.2 hc
    · rw [if_pos hmem]
      simp only [Option.map_some']
      constructor
      · intro habs
        have : types.length = types.length - 1 := Option.some.inj habs
        omega
      · intro hand
        exact absurd hand.1 hmem
  · unfold handle_negative_number
    rw [hnnLoop_skip (by decide) (by decide),
      hnnLoop_step (by decide) (by decide)
        (show handle_negative_case
            [(Sum.inl (0, 0), Sum.inl (0, 1)),
             (Sum.inl (0, 2), Sum.inl (0, 3)),
             (Sum.inl (0, 4), Sum.inl (0, 5))]
            ["identifier", "-", "integer"] 1 ["integer", "float"] =
            some ([(Sum.inl (0, 0), Sum.inl (0, 1)),
                   (Sum.inl (0, 2), Sum.inl (0, 3)),
                   (Sum.inl (0, 4), Sum.inl (0, 5))],
                  ["identifier", "-", "integer"]) from by decide),
      hnnLoop_skip (by decide) (by decide), hnnLoop_done (by decide)]
  · unfold handle_negative_number
    rw [hnnLoop_skip (by decide) (by decide),
      hnnLoop_skip (by decide) (by decide),
      hnnLoop_step (by decide) (by decide)
        (show handle_negative_case
            [(Sum.inl (0, 0), Sum.inl (0, 1)),
             (Sum.inl (0, 2), Sum.inl (0, 3)),
             (Sum.inl (0, 4), Sum.inl (0, 5)),
             (Sum.inl (0, 5), Sum.inl (0, 6))]
            ["identifier", "=", "-", "integer"] 2 ["integer", "float"] =
            some ([(Sum.inl (0, 0), Sum.inl (0, 1)),
                   (Sum.inl (0, 2), Sum.inl (0, 3)),
                   (Sum.inl (0, 4), Sum.inl (0, 6))],
                  ["identifier", "=", "integer"]) from by decide),
      hnnLoop_done (by decide)]

theorem C3_negative_merge_iff_witness :
    (handle_negative_case
        [(Sum.inl (0, 0), Sum.inl (0, 1)), (Sum.inl (0, 2), Sum.inl (0, 3)),
         (Sum.inl (0, 4), Sum.inl (0, 5)), (Sum.inl (0, 5), Sum.inl (0, 6))]
        ["identifier", "=", "-", "integer"] 2 ["integer", "float"]).map
      (fun r => r.2.length) = some 3 :=
  (C3_negative_merge_iff.1 _ ["identifier", "=", "-", "integer"] 2
    ["integer", "float"] rfl (by decide)).mpr (by decide)

theorem C5_composite_strings_descended_witness :
    getTokens false .PYTHON
      (.mk "string" (0, 0) (0, 4) 0 4
        [.mk "\"" (0, 0) (0, 1) 0 1 [], .mk "\"" (0, 3) (0, 4) 3 4 []])
      ([], []) =
      some ([(Sum.inl (0, 0), Sum.inl (0, 4))], ["string"]) := by
  rw [C5_composite_strings_descended.1 false .PYTHON "string" (0, 0) (0, 4)
    0 4 (.mk "\"" (0, 0) (0, 1) 0 1 []) [.mk "\"" (0, 3) (0, 4) 3 4 []]
    ([], []) (Or.inl (by decide))]
  simp [Node.startPoint, Node.endPoint, List.getLast]
